import Mathlib

/-!
# Verification of the radix_route_matcher repository

This file gives a shallow embedding of the `radix_route_matcher` crate:

* The compressed radix-trie core (`rax` in C) is not part of the `src/`
  tree — only its `extern` declarations appear in `src/ffi.rs`.  Its data
  model and algorithms are therefore *modelled from the spec* (sections 3
  and 4 of the design document): compressed nodes with non-empty edge
  labels, byte-ordered children, optional integer values, path-compressed
  insert/remove, and an iterator specified by its effect on the
  lexicographic enumeration of stored keys.
* The wrapper layer (`src/ffi.rs`, `src/radix_tree.rs`, `src/c_api.rs`)
  *is* in the repository and is embedded faithfully: the pointer-encoded
  values (a value is stored as the data pointer itself, null meaning
  "absent"), the retry loop of `tree_up_raw`, the loop-free
  `radix_tree_next` versus the looping `radix_tree_prev`, the ignored
  seek result in `tree_search_raw`, and the discarded old-value pointer
  in `tree_insert_raw`.

Keys are byte strings, modelled as `List Nat`; values travel as `Int`
(the integer value of the C pointer / `isize`).
-/

mutual

/-- Modelled from the spec (§3, Data model): a compressed trie node has an
optional value (`is_key` iff present) and an ordered set of child edges.
Each child edge stores the first byte of its label explicitly and the rest
of the label as a list, so edge labels are non-empty by construction.
`Node` and `NodeList` form a mutual inductive replacing the C pointer
graph by an owning tree. -/
inductive Node : Type where
  | mk : Option Int → NodeList → Node

/-- Children of a node: a list of edges `(first byte, rest of label, child)`,
kept in ascending order of first byte. -/
inductive NodeList : Type where
  | nil : NodeList
  | cons : Nat → List Nat → Node → NodeList → NodeList

end

/-- The value slot of a node. -/
def Node.val : Node → Option Int
  | .mk v _ => v

/-- The children of a node. -/
def Node.kids : Node → NodeList
  | .mk _ cs => cs

/-- The empty trie: a root with no value and no children. -/
def emptyNode : Node := .mk none .nil

/-- Look up the child edge starting with byte `b` (first match). -/
def lookupC : NodeList → Nat → Option (List Nat × Node)
  | .nil, _ => none
  | .cons b0 r0 c0 tl, b => if b0 = b then some (r0, c0) else lookupC tl b

/-- Insert a fresh leaf edge `(b, k, leaf v)` keeping children sorted by
first byte (used when no child starts with `b`). -/
def insertC : NodeList → Nat → List Nat → Int → NodeList
  | .nil, b, k, v => .cons b k (.mk (some v) .nil) .nil
  | .cons b0 r0 c0 tl, b, k, v =>
    if b < b0 then .cons b k (.mk (some v) .nil) (.cons b0 r0 c0 tl)
    else .cons b0 r0 c0 (insertC tl b k v)

/-- Replace the (first) edge starting with byte `b` by `(b, r, c)`. -/
def replaceC : NodeList → Nat → List Nat → Node → NodeList
  | .nil, _, _, _ => .nil
  | .cons b0 r0 c0 tl, b, r, c =>
    if b0 = b then .cons b0 r c tl else .cons b0 r0 c0 (replaceC tl b r c)

/-- Remove the (first) edge starting with byte `b`. -/
def eraseC : NodeList → Nat → NodeList
  | .nil, _ => .nil
  | .cons b0 r0 c0 tl, b => if b0 = b then tl else .cons b0 r0 c0 (eraseC tl b)

/-- Longest common first segment of two byte lists. -/
def lcp : List Nat → List Nat → List Nat
  | a :: as, b :: bs => if a = b then a :: lcp as bs else []
  | _, _ => []

/-- Modelled from the spec (§4.1, `find_exact`): walk edges consuming the
key exactly; return the value only if traversal consumes the whole key and
lands on a key node.  The first argument is recursion fuel; each step
consumes at least one key byte, so fuel `k.length + 1` always suffices
(see `find`). -/
def findGo : Nat → Node → List Nat → Option Int
  | 0, _, _ => none
  | _ + 1, .mk v _, [] => v
  | f + 1, .mk _ cs, b :: k =>
    match lookupC cs b with
    | none => none
    | some (rest, c) =>
      if rest.isPrefixOf k then findGo f c (k.drop rest.length) else none

/-- Exact lookup in the modelled trie. -/
def find (n : Node) (k : List Nat) : Option Int := findGo (k.length + 1) n k

/-- Modelled from the spec (§4.1, `insert`): walk from the root matching
the key against edge labels; on a partial label mismatch the edge is split
(a new internal node takes the matched part of the label); when the key is
exhausted the landing node's value is set and the previous value (if any)
is returned.  Fueled like `findGo`. -/
def insGo : Nat → Node → List Nat → Int → Node × Option Int
  | 0, n, _, _ => (n, none)
  | _ + 1, .mk v0 cs, [], v => (.mk (some v) cs, v0)
  | f + 1, .mk v0 cs, b :: k, v =>
    match lookupC cs b with
    | none => (.mk v0 (insertC cs b k v), none)
    | some (rest, c) =>
      if rest.isPrefixOf k then
        let p := insGo f c (k.drop rest.length) v
        (.mk v0 (replaceC cs b rest p.1), p.2)
      else
        let com := lcp rest k
        match rest.drop com.length, k.drop com.length with
        | r1 :: r1s, [] =>
          (.mk v0 (replaceC cs b com (.mk (some v) (.cons r1 r1s c .nil))), none)
        | r1 :: r1s, k1 :: k1s =>
          let two : NodeList :=
            if k1 < r1 then .cons k1 k1s (.mk (some v) .nil) (.cons r1 r1s c .nil)
            else .cons r1 r1s c (.cons k1 k1s (.mk (some v) .nil) .nil)
          (.mk v0 (replaceC cs b com (.mk none two)), none)
        | [], _ => (.mk v0 cs, none)

/-- Insert in the modelled trie; also returns the previous value of the
key (the spec's `Result<Option<old_value>>`). -/
def insTree (n : Node) (k : List Nat) (v : Int) : Node × Option Int :=
  insGo (k.length + 1) n k v

/-- Smart constructor used on the way back up by `remove` (modelled from
the spec §4.1): a non-root node left without value and without children
disappears; one left without value and with exactly one child is merged
with that child (labels concatenated); otherwise it is kept.  The result
is `none` (delete) or `some (ext, node)` where `ext` is the label suffix
to append to the incoming edge. -/
def normNode : Node → Option (List Nat × Node)
  | .mk none .nil => none
  | .mk none (.cons b r c .nil) => some (b :: r, c)
  | n => some ([], n)

/-- Modelled from the spec (§4.1, `remove`), for non-root nodes: walk like
`find_exact`; if found clear the value, then restore the compression
invariant on the way back up via `normNode`: a child edge is deleted,
re-labelled (after a merge) or replaced.  Result: `none` if the key is
absent, otherwise the replacement (or deletion) of this subtree.
Fueled like `findGo`. -/
def remGo : Nat → Node → List Nat → Option (Option (List Nat × Node))
  | 0, _, _ => none
  | _ + 1, .mk v0 cs, [] =>
    match v0 with
    | none => none
    | some _ => some (normNode (.mk none cs))
  | f + 1, .mk v0 cs, b :: k =>
    match lookupC cs b with
    | none => none
    | some (rest, c) =>
      if rest.isPrefixOf k then
        match remGo f c (k.drop rest.length) with
        | none => none
        | some none => some (normNode (.mk v0 (eraseC cs b)))
        | some (some (ext, c')) =>
          some (normNode (.mk v0 (replaceC cs b (rest ++ ext) c')))
      else none

/-- Remove a key from the modelled trie (root level; the root is exempt
from the compression invariant and is never merged or deleted).
`none` means the key was absent and the trie is unchanged. -/
def remTree (n : Node) (k : List Nat) : Option Node :=
  match n, k with
  | .mk v0 cs, [] =>
    match v0 with
    | none => none
    | some _ => some (.mk none cs)
  | .mk v0 cs, b :: k1 =>
    match lookupC cs b with
    | none => none
    | some (rest, c) =>
      if rest.isPrefixOf k1 then
        match remGo (k1.length + 1) c (k1.drop rest.length) with
        | none => none
        | some none => some (.mk v0 (eraseC cs b))
        | some (some (ext, c')) =>
          some (.mk v0 (replaceC cs b (rest ++ ext) c'))
      else none

mutual

/-- All `(key, value)` bindings stored in a subtree, keys relative to the
subtree root.  A node's own binding (empty relative key) comes before the
bindings reached through its children, and children are enumerated in
list order, so for a well-formed trie this enumeration is in ascending
lexicographic key order. -/
def entriesN : Node → List (List Nat × Int)
  | .mk v cs =>
    (match v with | some x => [(([] : List Nat), x)] | none => []) ++ entriesL cs

/-- Bindings reached through a child list. -/
def entriesL : NodeList → List (List Nat × Int)
  | .nil => []
  | .cons b r c tl =>
    (entriesN c).map (fun e => (b :: r ++ e.1, e.2)) ++ entriesL tl

end

/-- The stored keys of a trie. -/
def keysOf (n : Node) : List (List Nat) := (entriesN n).map Prod.fst

/-- First-match association lookup in an entry list. -/
def lookupVal : List (List Nat × Int) → List Nat → Option Int
  | [], _ => none
  | e :: tl, k => if e.1 = k then some e.2 else lookupVal tl k

/-- Test that `b` is strictly below every child byte of the list. -/
def ltAllB (b : Nat) : NodeList → Bool
  | .nil => true
  | .cons b' _ _ tl => decide (b < b') && ltAllB b tl

mutual

/-- Well-formedness of the child ordering (spec §3: children are keyed by
distinct first bytes, in natural byte order). -/
def wfN : Node → Bool
  | .mk _ cs => wfL cs

/-- Well-formedness for a child list: strictly ascending first bytes and
well-formed subtrees. -/
def wfL : NodeList → Bool
  | .nil => true
  | .cons b _ c tl => ltAllB b tl && wfN c && wfL tl

end

/-- Number of edges in a child list. -/
def lenL : NodeList → Nat
  | .nil => 0
  | .cons _ _ _ tl => lenL tl + 1

mutual

/-- The path-compression invariant (spec §3) at a non-root node: the node
is a key node or has at least two children, and its subtrees satisfy the
invariant as well. -/
def compNode : Node → Bool
  | .mk v cs => (v.isSome || decide (2 ≤ lenL cs)) && compKids cs

/-- The compression invariant through a child list. -/
def compKids : NodeList → Bool
  | .nil => true
  | .cons _ _ c tl => compNode c && compKids tl

end

/-- Strict byte-wise lexicographic order on keys: shorter-is-smaller when
one is a proper first segment of the other. -/
def keyLT : List Nat → List Nat → Bool
  | [], [] => false
  | [], _ :: _ => true
  | _ :: _, [] => false
  | a :: as, b :: bs => decide (a < b) || (decide (a = b) && keyLT as bs)

/-- Non-strict version of `keyLT`. -/
def keyLE (x y : List Nat) : Bool := keyLT x y || decide (x = y)

/-- Non-strict key order as a decidable proposition (for sorting). -/
def keyLEP (x y : List Nat) : Prop := keyLE x y = true

instance : DecidableRel keyLEP := fun x y => inferInstanceAs (Decidable (keyLE x y = true))

/-- Strict key order as a proposition. -/
def keyLTP (x y : List Nat) : Prop := keyLT x y = true

/-- Modelled from the spec (§4.1/§9): the `raxNotFound` sentinel is the
address of a static object — non-null and, on the platforms considered,
outside the range of sign-extended 32-bit values; it is fixed here at
`2^40`. -/
def notFoundAddr : Int := 2 ^ 40

/-- Truncation of a pointer-sized integer to a 32-bit signed integer
(the `as isize as c_int` casts of `src/ffi.rs` and `src/c_api.rs`). -/
def i32cast (d : Int) : Int := (d + 2 ^ 31) % 2 ^ 32 - 2 ^ 31

/-- Modelled from the spec (§6): `raxFind` returns the stored data pointer
of an exactly matching key, or the `raxNotFound` sentinel. -/
def raxFindM (t : Node) (k : List Nat) : Int :=
  match find t k with
  | some d => d
  | none => notFoundAddr

/-- Function `tree_find_raw` of `src/ffi.rs`: map the `raxNotFound` sentinel to the
null pointer, pass any other result through. -/
def treeFindRaw (t : Node) (k : List Nat) : Int :=
  let res := raxFindM t k
  if res = notFoundAddr then 0 else res

/-- Method `RadixTree::find_exact` of `src/radix_tree.rs`: a null result means
absent, anything else is truncated to an `i32` value. -/
def findExactM (t : Node) (k : List Nat) : Option Int :=
  let res := treeFindRaw t k
  if res = 0 then none else some (i32cast res)

/-- Function `tree_insert_raw` of `src/ffi.rs`: the `i32` index is sign-extended
and stored as the data pointer; the old-value out-pointer is passed as
null, so the previous value is discarded.  The status is `0` for success
(spec §6; the modelled insert cannot fail). -/
def treeInsertRaw (t : Node) (k : List Nat) (idx : Int) : Node × Int :=
  ((insTree t k idx).1, 0)

/-- Method `RadixTree::insert` of `src/radix_tree.rs`: negative status codes
become errors, everything else is `Ok(())`. -/
def insertRes (t : Node) (k : List Nat) (idx : Int) : Node × Except Int Unit :=
  let r := treeInsertRaw t k idx
  (r.1, if r.2 < 0 then Except.error r.2 else Except.ok ())

/-- Modelled from the spec (§6): removal reports a negative status when
the key is absent (`-1` here) and `0` on success; on failure the trie is
untouched. -/
def treeRemoveRaw (t : Node) (k : List Nat) : Node × Int :=
  match remTree t k with
  | some t' => (t', 0)
  | none => (t, -1)

/-- Method `RadixTree::remove` of `src/radix_tree.rs`. -/
def removeRes (t : Node) (k : List Nat) : Node × Except Int Unit :=
  let r := treeRemoveRaw t k
  (r.1, if r.2 < 0 then Except.error r.2 else Except.ok ())

/-- Greatest element of a key list under the lexicographic order. -/
def maxKey : List (List Nat) → Option (List Nat)
  | [] => none
  | k :: tl =>
    match maxKey tl with
    | none => some k
    | some m => some (if keyLT m k then k else m)

/-- Modelled from the spec (§4.2, `seek_at_or_before`): the
lexicographically greatest stored key that is at most `p`, if any. -/
def seekLE (t : Node) (p : List Nat) : Option (List Nat) :=
  maxKey ((keysOf t).filter (fun k => keyLE k p))

/-- All first segments of a byte list, shortest first. -/
def prefixesAsc : List Nat → List (List Nat)
  | [] => [[]]
  | b :: r => [] :: (prefixesAsc r).map (fun q => b :: q)

/-- All first segments of a byte list, longest first. -/
def prefixesDesc (s : List Nat) : List (List Nat) := (prefixesAsc s).reverse

/-- Modelled from the spec (§4.2 `move_to_nearest_enclosing_key` and the
§4.3/§8 examples): after a seek landing on stored key `s`, successive
`raxUp` calls visit exactly the stored keys that are first segments of
`s`, starting with `s` itself and shortening towards the root. -/
def upCands (t : Node) (s : List Nat) : List (List Nat) :=
  (prefixesDesc s).filter (fun q => decide (q ∈ keysOf t))

/-- The ancestor-candidate stack established by a seek for `p`: empty when
no stored key is at most `p`. -/
def searchUpState (t : Node) (p : List Nat) : List (List Nat) :=
  match seekLE t p with
  | none => []
  | some s => upCands t s

/-- Function `tree_search_raw` of `src/ffi.rs` as used by `RadixTree::search`: the
seek is performed only for its positioning effect — its result is ignored
and the (non-null) iterator pointer is returned, so the boolean outcome is
constantly `true`. -/
def searchM (t : Node) (p : List Nat) : List (List Nat) × Bool :=
  (searchUpState t p, true)

/-- The filter of the `tree_up_raw` loop: the candidate key must be no
longer than the query and byte-wise equal to its first segment
(`key_len > len` check followed by `memcmp`). -/
def passB (p q : List Nat) : Bool :=
  decide (q.length ≤ p.length) && decide (p.take q.length = q)

/-- Function `tree_up_raw` of `src/ffi.rs`: pop ancestor candidates until one
passes the filter (returning its value truncated to `c_int`) or the stack
is exhausted (returning `-1`). -/
def treeUpRaw (t : Node) (p : List Nat) : List (List Nat) → Int × List (List Nat)
  | [] => (-1, [])
  | q :: rest =>
    if passB p q then (i32cast ((lookupVal (entriesN t) q).getD 0), rest)
    else treeUpRaw t p rest

/-- Method `RadixTree::next_prefix` of `src/radix_tree.rs`: a non-positive
result from `tree_up_raw` is reported as `None`. -/
def nextPrefixM (t : Node) (p : List Nat) (st : List (List Nat)) :
    Option Int × List (List Nat) :=
  let r := treeUpRaw t p st
  (if r.1 ≤ 0 then none else some r.1, r.2)

/-- The collection loop of `RadixTree::find_all_prefixes`
(`while let Some(idx) = next_prefix`), with explicit fuel. -/
def collectPref (t : Node) (p : List Nat) : Nat → List (List Nat) → List Int
  | 0, _ => []
  | f + 1, st =>
    match nextPrefixM t p st with
    | (none, _) => []
    | (some v, st') => v :: collectPref t p f st'

/-- Method `RadixTree::find_all_prefixes` of `src/radix_tree.rs`. -/
def findAllPrefixesM (t : Node) (p : List Nat) : List Int :=
  let st := searchM t p
  if st.2 then collectPref t p (st.1.length + 1) st.1 else []

/-- Method `RadixTree::longest_prefix` of `src/radix_tree.rs`: seek, then a
single `tree_up_raw`, with non-positive results reported as `None`. -/
def longestPrefixM (t : Node) (p : List Nat) : Option Int :=
  let st := searchM t p
  if !st.2 then none
  else
    let r := treeUpRaw t p st.1
    if r.1 ≤ 0 then none else some r.1

/-- The stored keys in ascending lexicographic order.  Modelled from the
spec (§4.2): `next`/`previous` move through the lexicographic enumeration
of all stored keys; the iterator is a cursor into this enumeration. -/
def ascKeys (t : Node) : List (List Nat) :=
  List.insertionSort keyLEP (keysOf t)

/-- Function `radix_tree_next` of `src/c_api.rs` on the modelled iterator (state =
keys not yet visited, ascending): advance once (`raxNext`); exhaustion or
a key failing the filter returns `-1` — there is no retry loop, so a
mismatch is reported as exhaustion even when later keys match. -/
def radixNextM (t : Node) (p : List Nat) : List (List Nat) → Int × List (List Nat)
  | [] => (-1, [])
  | q :: rest =>
    if passB p q then (i32cast ((lookupVal (entriesN t) q).getD 0), rest)
    else (-1, rest)

/-- Function `radix_tree_prev` of `src/c_api.rs` on the modelled iterator (state =
keys not yet visited, descending): unlike `radix_tree_next` this loops,
skipping keys that fail the filter until a match or exhaustion. -/
def radixPrevM (t : Node) (p : List Nat) : List (List Nat) → Int × List (List Nat)
  | [] => (-1, [])
  | q :: rest =>
    if passB p q then (i32cast ((lookupVal (entriesN t) q).getD 0), rest)
    else radixPrevM t p rest

/-- Values produced by successive calls of an iterator primitive until it
reports exhaustion (`-1`), with explicit fuel. -/
def collectRun (step : List (List Nat) → Int × List (List Nat)) :
    Nat → List (List Nat) → List Int
  | 0, _ => []
  | f + 1, st =>
    let r := step st
    if r.1 = -1 then [] else r.1 :: collectRun step f r.2

/-- The sequence of values returned by successive `radix_tree_next` calls
starting from an unpositioned iterator. -/
def nextRun (t : Node) (p : List Nat) : List Int :=
  collectRun (radixNextM t p) ((ascKeys t).length + 1) (ascKeys t)

/-- The sequence of values returned by successive `radix_tree_prev` calls
starting from an unpositioned iterator. -/
def prevRun (t : Node) (p : List Nat) : List Int :=
  collectRun (radixPrevM t p) ((ascKeys t).length + 1) (ascKeys t).reverse

/-- The `tree_up_raw` loop body iterated under explicit fuel: `none` means
the fuel ran out before the loop returned. -/
def upLoopFuel (t : Node) (p : List Nat) : Nat → List (List Nat) → Option (Int × List (List Nat))
  | 0, _ => none
  | _ + 1, [] => some (-1, [])
  | f + 1, q :: rest =>
    if passB p q then some (i32cast ((lookupVal (entriesN t) q).getD 0), rest)
    else upLoopFuel t p f rest

/-- The `radix_tree_prev` loop body iterated under explicit fuel. -/
def prevLoopFuel (t : Node) (p : List Nat) : Nat → List (List Nat) → Option (Int × List (List Nat))
  | 0, _ => none
  | _ + 1, [] => some (-1, [])
  | f + 1, q :: rest =>
    if passB p q then some (i32cast ((lookupVal (entriesN t) q).getD 0), rest)
    else prevLoopFuel t p f rest

/-- The first bytes of a child list's edges. -/
def bytesL : NodeList → List Nat
  | .nil => []
  | .cons b _ _ tl => b :: bytesL tl

/-- Example trie with two unrelated keys: `[97] ↦ 1`, `[98] ↦ 2`. -/
def abTree : Node := (insTree (insTree emptyNode [97] 1).1 [98] 2).1

/-- Example trie with a non-positive stored value: the key `[97]` holds
value `-5`. -/
def negTree : Node := (insTree emptyNode [97] (-5)).1

/-- Example trie for witnesses: `[47] ↦ 1`, `[47, 97] ↦ 2`,
`[47, 97, 98] ↦ 3` (the spec §8 example tree). -/
def wtree : Node :=
  (insTree (insTree (insTree emptyNode [47] 1).1 [47, 97] 2).1 [47, 97, 98] 3).1

/-- Latest binding of a key in an insertion sequence (later entries win). -/
def assocLast : List (List Nat × Int) → List Nat → Option Int
  | [], _ => none
  | e :: tl, k =>
    match assocLast tl k with
    | some v => some v
    | none => if e.1 = k then some e.2 else none

/-- The tree built by inserting the given pairs, in order, through
`tree_insert_raw` starting from an empty tree. -/
def buildTree (ps : List (List Nat × Int)) : Node :=
  ps.foldl (fun t e => (treeInsertRaw t e.1 e.2).1) emptyNode

/-- Lookup of a subtree behind a relabelled edge: the walk that first
consumes `ext` byte-wise. -/
def findVia (g : Nat) (ext : List Nat) (c : Node) (k : List Nat) : Option Int :=
  if ext.isPrefixOf k then findGo g c (k.drop ext.length) else none

/-! ## Order lemmas for byte-wise lexicographic comparison -/

/-- Bridge between the boolean prefix test and the prefix relation. -/
theorem preIff {a b : List Nat} : a.isPrefixOf b = true ↔ a <+: b :=
  List.isPrefixOf_iff_prefix

theorem keyLT_irrefl : ∀ x, keyLT x x = false
  | [] => rfl
  | _ :: as => by simp [keyLT, keyLT_irrefl as]

theorem keyLE_refl (x : List Nat) : keyLE x x = true := by
  simp [keyLE]

theorem keyLT_trans : ∀ x y z, keyLT x y = true → keyLT y z = true → keyLT x z = true
  | [], [], _, h, _ => by simp [keyLT] at h
  | [], _ :: _, [], _, h2 => by simp [keyLT] at h2
  | [], _ :: _, _ :: _, _, _ => by simp [keyLT]
  | _ :: _, [], _, h, _ => by simp [keyLT] at h
  | _ :: _, _ :: _, [], _, h2 => by simp [keyLT] at h2
  | a :: as, b :: bs, c :: cs, h1, h2 => by
    simp only [keyLT, Bool.or_eq_true, Bool.and_eq_true, decide_eq_true_eq] at h1 h2 ⊢
    rcases h1 with h1 | ⟨rfl, h1⟩
    · rcases h2 with h2 | ⟨rfl, _⟩
      · exact Or.inl (Nat.lt_trans h1 h2)
      · exact Or.inl h1
    · rcases h2 with h2 | ⟨rfl, h2⟩
      · exact Or.inl h2
      · exact Or.inr ⟨rfl, keyLT_trans as bs cs h1 h2⟩

theorem keyLT_total : ∀ x y, keyLT x y = true ∨ keyLT y x = true ∨ x = y
  | [], [] => Or.inr (Or.inr rfl)
  | [], _ :: _ => Or.inl (by simp [keyLT])
  | _ :: _, [] => Or.inr (Or.inl (by simp [keyLT]))
  | a :: as, b :: bs => by
    rcases Nat.lt_trichotomy a b with h | h | h
    · exact Or.inl (by simp [keyLT, h])
    · subst h
      rcases keyLT_total as bs with h | h | h
      · exact Or.inl (by simp [keyLT, h])
      · exact Or.inr (Or.inl (by simp [keyLT, h]))
      · exact Or.inr (Or.inr (by rw [h]))
    · exact Or.inr (Or.inl (by simp [keyLT, h]))

theorem keyLT_asymm {x y : List Nat} (h : keyLT x y = true) : keyLT y x = false := by
  by_contra hc
  have hyx : keyLT y x = true := by
    cases h2 : keyLT y x
    · exact absurd h2 hc
    · rfl
  have := keyLT_trans x y x h hyx
  rw [keyLT_irrefl] at this
  exact absurd this (by simp)

theorem keyLE_antisymm {x y : List Nat} (h1 : keyLE x y = true) (h2 : keyLE y x = true) :
    x = y := by
  simp only [keyLE, Bool.or_eq_true, decide_eq_true_eq] at h1 h2
  rcases h1 with h1 | h1
  · rcases h2 with h2 | h2
    · have := keyLT_asymm h1
      rw [h2] at this
      exact absurd this (by simp)
    · exact h2.symm
  · exact h1

theorem keyLE_trans {x y z : List Nat} (h1 : keyLE x y = true) (h2 : keyLE y z = true) :
    keyLE x z = true := by
  simp only [keyLE, Bool.or_eq_true, decide_eq_true_eq] at h1 h2 ⊢
  rcases h1 with h1 | rfl
  · rcases h2 with h2 | rfl
    · exact Or.inl (keyLT_trans x y z h1 h2)
    · exact Or.inl h1
  · exact h2

theorem keyLE_total (x y : List Nat) : keyLE x y = true ∨ keyLE y x = true := by
  simp only [keyLE, Bool.or_eq_true, decide_eq_true_eq]
  rcases keyLT_total x y with h | h | h
  · exact Or.inl (Or.inl h)
  · exact Or.inr (Or.inl h)
  · exact Or.inl (Or.inr h)

theorem keyLT_of_keyLE_of_ne {x y : List Nat} (h : keyLE x y = true) (hne : x ≠ y) :
    keyLT x y = true := by
  simp only [keyLE, Bool.or_eq_true, decide_eq_true_eq] at h
  rcases h with h | h
  · exact h
  · exact absurd h hne

theorem keyLE_of_keyLT {x y : List Nat} (h : keyLT x y = true) : keyLE x y = true := by
  simp [keyLE, h]

theorem keyLE_cons_iff {a b : Nat} {x y : List Nat} :
    keyLE (a :: x) (b :: y) = true ↔ a < b ∨ (a = b ∧ keyLE x y = true) := by
  simp only [keyLE, keyLT, Bool.or_eq_true, Bool.and_eq_true, decide_eq_true_eq,
    List.cons.injEq]
  constructor
  · rintro ((h | ⟨rfl, h⟩) | ⟨rfl, rfl⟩)
    · exact Or.inl h
    · exact Or.inr ⟨rfl, Or.inl h⟩
    · exact Or.inr ⟨rfl, Or.inr rfl⟩
  · rintro (h | ⟨rfl, h | rfl⟩)
    · exact Or.inl (Or.inl h)
    · exact Or.inl (Or.inr ⟨rfl, h⟩)
    · exact Or.inr ⟨rfl, rfl⟩

/-- A byte-wise first segment of a key is at most the key (PR1). -/
theorem keyLE_of_isPre : ∀ {x y : List Nat}, x <+: y → keyLE x y = true
  | [], y, _ => by cases y <;> simp [keyLE, keyLT]
  | a :: x, _, ⟨tl, rfl⟩ => by
    rw [List.cons_append]
    exact keyLE_cons_iff.mpr (Or.inr ⟨rfl, keyLE_of_isPre ⟨tl, rfl⟩⟩)

/-- Squeezing: if `q ≤ s ≤ p` in the lexicographic order and `q` is a
first segment of `p`, then `q` is also a first segment of `s` (PR2). -/
theorem isPre_of_between : ∀ {q s p : List Nat},
    keyLE q s = true → keyLE s p = true → q <+: p → q <+: s
  | [], _, _, _, _, _ => List.nil_prefix
  | a :: q', s, p, h1, h2, hp => by
    obtain ⟨tl, rfl⟩ := hp
    cases s with
    | nil => simp [keyLE, keyLT] at h1
    | cons b s' =>
      rcases keyLE_cons_iff.mp h1 with hab | ⟨rfl, h1'⟩
      · rcases keyLE_cons_iff.mp h2 with hba | ⟨rfl, _⟩
        · omega
        · omega
      · rcases keyLE_cons_iff.mp h2 with hba | ⟨_, h2'⟩
        · omega
        · obtain ⟨u, hu⟩ := isPre_of_between h1' h2' ⟨tl, rfl⟩
          exact ⟨u, by rw [List.cons_append, hu]⟩

/-! ## First-segment enumeration and the `tree_up_raw` filter -/

theorem mem_prefixesAsc : ∀ (s q : List Nat), q ∈ prefixesAsc s ↔ q <+: s
  | [], q => by simp [prefixesAsc, List.prefix_nil]
  | b :: r, q => by
    simp only [prefixesAsc, List.mem_cons, List.mem_map]
    constructor
    · rintro (rfl | ⟨q', hq', rfl⟩)
      · exact List.nil_prefix
      · exact List.cons_prefix_cons.mpr ⟨rfl, (mem_prefixesAsc r q').mp hq'⟩
    · intro h
      cases q with
      | nil => exact Or.inl rfl
      | cons a q' =>
        have hh := List.cons_prefix_cons.mp h
        exact Or.inr ⟨q', (mem_prefixesAsc r q').mpr hh.2, by rw [hh.1]⟩

theorem prefixesAsc_len_lt :
    ∀ s : List Nat, List.Pairwise (fun a b : List Nat => a.length < b.length) (prefixesAsc s)
  | [] => by simp [prefixesAsc]
  | b :: r => by
    simp only [prefixesAsc, List.pairwise_cons]
    constructor
    · rintro q hq
      obtain ⟨q', _, rfl⟩ := List.mem_map.mp hq
      simp
    · rw [List.pairwise_map]
      exact (prefixesAsc_len_lt r).imp (by intro a b h; simpa using h)

theorem prefixesDesc_len_gt (s : List Nat) :
    List.Pairwise (fun a b : List Nat => b.length < a.length) (prefixesDesc s) := by
  rw [prefixesDesc, List.pairwise_reverse]
  exact prefixesAsc_len_lt s

theorem prefixesDesc_nodup (s : List Nat) : (prefixesDesc s).Nodup :=
  (prefixesDesc_len_gt s).imp (fun h => by intro he; subst he; omega)

theorem mem_prefixesDesc {s q : List Nat} : q ∈ prefixesDesc s ↔ q <+: s := by
  rw [prefixesDesc, List.mem_reverse]
  exact mem_prefixesAsc s q

theorem passB_iff {p q : List Nat} : passB p q = true ↔ q <+: p := by
  simp only [passB, Bool.and_eq_true, decide_eq_true_eq]
  constructor
  · rintro ⟨_, h⟩
    rw [← h]
    exact List.take_prefix _ _
  · intro h
    exact ⟨h.length_le, (List.prefix_iff_eq_take.mp h).symm⟩

theorem upCands_nodup (t : Node) (s : List Nat) : (upCands t s).Nodup :=
  (prefixesDesc_nodup s).filter _

theorem mem_upCands {t : Node} {s q : List Nat} :
    q ∈ upCands t s ↔ q <+: s ∧ q ∈ keysOf t := by
  rw [upCands, List.mem_filter, mem_prefixesDesc]
  simp

theorem upCands_len_gt (t : Node) (s : List Nat) :
    List.Pairwise (fun a b : List Nat => b.length < a.length) (upCands t s) :=
  (prefixesDesc_len_gt s).sublist (List.filter_sublist _)

/-! ## Characterization of `maxKey` and `seekLE` -/

theorem maxKey_eq_none_iff : ∀ {l : List (List Nat)}, maxKey l = none ↔ l = []
  | [] => by simp [maxKey]
  | k :: tl => by
    simp only [maxKey]
    cases maxKey tl <;> simp

theorem maxKey_mem : ∀ {l : List (List Nat)} {m : List Nat}, maxKey l = some m → m ∈ l
  | [], m, h => by simp [maxKey] at h
  | k :: tl, m, h => by
    simp only [maxKey] at h
    cases htl : maxKey tl with
    | none =>
      rw [htl] at h
      simp only [Option.some.injEq] at h
      subst h
      exact List.mem_cons_self _ _
    | some m' =>
      rw [htl] at h
      simp only [Option.some.injEq] at h
      by_cases hlt : keyLT m' k = true
      · rw [if_pos hlt] at h
        subst h
        exact List.mem_cons_self _ _
      · rw [if_neg hlt] at h
        exact List.mem_cons_of_mem _ (h ▸ maxKey_mem htl)

theorem maxKey_ge : ∀ {l : List (List Nat)} {m : List Nat}, maxKey l = some m →
    ∀ k ∈ l, keyLE k m = true
  | [], m, h => by simp [maxKey] at h
  | k0 :: tl, m, h => by
    intro k hk
    simp only [maxKey] at h
    cases htl : maxKey tl with
    | none =>
      rw [htl] at h
      simp only [Option.some.injEq] at h
      subst h
      rcases List.mem_cons.mp hk with rfl | hk
      · exact keyLE_refl k
      · rw [maxKey_eq_none_iff.mp htl] at hk
        simp at hk
    | some m' =>
      rw [htl] at h
      simp only [Option.some.injEq] at h
      by_cases hlt : keyLT m' k0 = true
      · simp only [hlt, if_true] at h
        subst h
        rcases List.mem_cons.mp hk with rfl | hk
        · exact keyLE_refl k
        · exact keyLE_trans (maxKey_ge htl k hk) (keyLE_of_keyLT hlt)
      · simp only [hlt, if_false] at h
        subst h
        rcases List.mem_cons.mp hk with rfl | hk
        · rcases keyLT_total k m' with hx | hx | hx
          · exact keyLE_of_keyLT hx
          · exact absurd hx hlt
          · exact hx ▸ keyLE_refl k
        · exact maxKey_ge htl k hk

theorem seekLE_none {t : Node} {p : List Nat} (h : seekLE t p = none) :
    ∀ k ∈ keysOf t, keyLE k p = false := by
  intro k hk
  have hnil : (keysOf t).filter (fun k => keyLE k p) = [] := maxKey_eq_none_iff.mp h
  by_contra hc
  have hkp : keyLE k p = true := by
    cases h2 : keyLE k p
    · exact absurd h2 hc
    · rfl
  have hmem : k ∈ (keysOf t).filter (fun k => keyLE k p) :=
    List.mem_filter.mpr ⟨hk, by simpa using hkp⟩
  rw [hnil] at hmem
  exact absurd hmem (List.not_mem_nil k)

theorem seekLE_some {t : Node} {p s : List Nat} (h : seekLE t p = some s) :
    s ∈ keysOf t ∧ keyLE s p = true ∧
      ∀ q ∈ keysOf t, keyLE q p = true → keyLE q s = true := by
  have hmem := maxKey_mem h
  rw [List.mem_filter] at hmem
  refine ⟨hmem.1, by simpa using hmem.2, ?_⟩
  intro q hq hqp
  exact maxKey_ge h q (List.mem_filter.mpr ⟨hq, by simpa using hqp⟩)

/-! ## The candidate stack after a seek -/

theorem i32cast_eq_self {d : Int} (h1 : -2 ^ 31 ≤ d) (h2 : d < 2 ^ 31) : i32cast d = d := by
  simp only [i32cast]
  omega

theorem lookupVal_of_mem_keys :
    ∀ {l : List (List Nat × Int)} {k : List Nat}, k ∈ l.map Prod.fst →
      ∃ v, lookupVal l k = some v ∧ (k, v) ∈ l
  | [], k, h => by simp at h
  | e :: tl, k, h => by
    by_cases he : e.1 = k
    · exact ⟨e.2, by simp [lookupVal, he], by rw [← he]; simp⟩
    · rcases List.mem_map.mp h with ⟨e', he', hk⟩
      rcases List.mem_cons.mp he' with rfl | he'
      · exact absurd hk he
      · obtain ⟨v, hv, hmem⟩ := lookupVal_of_mem_keys (l := tl) (List.mem_map.mpr ⟨e', he', hk⟩)
        exact ⟨v, by simp [lookupVal, he, hv], List.mem_cons_of_mem _ hmem⟩

/-- The surviving candidates of the `tree_up_raw` filter, applied to the
stack established by a seek for `p`, are exactly the stored keys that are
first segments of `p`, longest first. -/
theorem searchState_filter_eq (t : Node) (p : List Nat) :
    (searchUpState t p).filter (passB p) = upCands t p := by
  cases hseek : seekLE t p with
  | none =>
    have hnil : upCands t p = [] := by
      rw [List.eq_nil_iff_forall_not_mem]
      intro q hq
      rcases mem_upCands.mp hq with ⟨hpre, hkey⟩
      have := seekLE_none hseek q hkey
      rw [keyLE_of_isPre hpre] at this
      exact absurd this (by simp)
    rw [searchUpState, hseek, hnil]
    rfl
  | some s =>
    obtain ⟨hs_mem, hs_le, hs_max⟩ := seekLE_some hseek
    rw [searchUpState, hseek]
    haveI : IsAntisymm (List Nat) (fun a b : List Nat => b.length < a.length) :=
      ⟨fun a b h1 h2 => absurd h2 (by omega)⟩
    have hperm : ((upCands t s).filter (passB p)).Perm (upCands t p) := by
      apply (List.perm_ext_iff_of_nodup ((upCands_nodup t s).filter _) (upCands_nodup t p)).mpr
      intro q
      rw [List.mem_filter, mem_upCands, mem_upCands]
      constructor
      · rintro ⟨⟨_, hkey⟩, hpass⟩
        exact ⟨passB_iff.mp hpass, hkey⟩
      · rintro ⟨hpre, hkey⟩
        have hqp : keyLE q p = true := keyLE_of_isPre hpre
        have hqs : keyLE q s = true := hs_max q hkey hqp
        exact ⟨⟨isPre_of_between hqs hs_le hpre, hkey⟩, passB_iff.mpr hpre⟩
    have hs1 : List.Sorted (fun a b : List Nat => b.length < a.length)
        ((upCands t s).filter (passB p)) :=
      (upCands_len_gt t s).sublist (List.filter_sublist _)
    have hs2 : List.Sorted (fun a b : List Nat => b.length < a.length) (upCands t p) :=
      upCands_len_gt t p
    exact List.eq_of_perm_of_sorted hperm hs1 hs2

/-- The value returned by one `tree_up_raw` call is determined by the
first candidate passing the filter. -/
theorem treeUpRaw_fst (t : Node) (p : List Nat) : ∀ st : List (List Nat),
    (treeUpRaw t p st).1 =
      match (st.filter (passB p)).head? with
      | none => -1
      | some q => i32cast ((lookupVal (entriesN t) q).getD 0)
  | [] => rfl
  | q :: rest => by
    rw [treeUpRaw, List.filter_cons]
    by_cases hq : passB p q = true
    · simp [hq]
    · simp only [hq, Bool.false_eq_true, if_false, if_neg hq]
      exact treeUpRaw_fst t p rest

/-- The `find_all_prefixes` collection loop keeps the candidate values,
in order, up to the first non-positive one. -/
theorem collectPref_eq (t : Node) (p : List Nat) :
    ∀ (st : List (List Nat)) (f : Nat), st.length < f →
      collectPref t p f st =
        ((st.filter (passB p)).map
            (fun q => i32cast ((lookupVal (entriesN t) q).getD 0))).takeWhile
          (fun v => decide (0 < v))
  | [], f, hf => by
    cases f with
    | zero => omega
    | succ f' => simp [collectPref, nextPrefixM, treeUpRaw]
  | q :: rest, f, hf => by
    cases f with
    | zero => omega
    | succ f' =>
      by_cases hq : passB p q = true
      · rw [List.filter_cons, if_pos hq, List.map_cons, List.takeWhile_cons]
        set v0 := i32cast ((lookupVal (entriesN t) q).getD 0) with hv0
        by_cases hpos : (0 : Int) < v0
        · rw [collectPref]
          have hnext : nextPrefixM t p (q :: rest) = (some v0, rest) := by
            simp [nextPrefixM, treeUpRaw, hq, ← hv0]
            omega
          rw [hnext]
          simp only [decide_eq_true_eq, hpos, if_pos]
          rw [collectPref_eq t p rest f' (by simpa using Nat.lt_of_succ_lt_succ hf)]
        · rw [collectPref]
          have hnext : nextPrefixM t p (q :: rest) = (none, rest) := by
            simp [nextPrefixM, treeUpRaw, hq, ← hv0]
            omega
          rw [hnext]
          simp [hpos]
      · have hstep : collectPref t p (f' + 1) (q :: rest) = collectPref t p (f' + 1) rest := by
          rw [collectPref, collectPref]
          have : nextPrefixM t p (q :: rest) = nextPrefixM t p rest := by
            simp [nextPrefixM, treeUpRaw, hq]
          rw [this]
        rw [hstep, List.filter_cons, if_neg (by simpa using hq)]
        exact collectPref_eq t p rest (f' + 1) (by simp at hf ⊢; omega)

/-- Lemma: `find_all_prefixes` collects the candidate values, longest first, up
to the first non-positive one. -/
theorem findAll_eq (t : Node) (p : List Nat) :
    findAllPrefixesM t p =
      ((upCands t p).map
          (fun q => i32cast ((lookupVal (entriesN t) q).getD 0))).takeWhile
        (fun v => decide (0 < v)) := by
  have h : findAllPrefixesM t p = collectPref t p ((searchUpState t p).length + 1) (searchUpState t p) := by
    simp [findAllPrefixesM, searchM]
  rw [h, collectPref_eq t p (searchUpState t p) ((searchUpState t p).length + 1) (by omega),
    searchState_filter_eq]

/-- Unfolding of `longest_prefix`: the seek always "succeeds", so the result
is the first passing candidate's value, with non-positive values mapped
to `None`. -/
theorem longestPrefixM_eq (t : Node) (p : List Nat) :
    longestPrefixM t p =
      (if (treeUpRaw t p (searchUpState t p)).1 ≤ 0 then none
       else some (treeUpRaw t p (searchUpState t p)).1) := rfl

/-- C10: prefix-matching operations never return a non-positive value;
`longest_prefix` maps a non-positive candidate value to `None`, and
`find_all_prefixes` produces exactly the candidate values (longest first)
up to — and excluding — the first non-positive one, so such a key and all
shorter matching ones are omitted. -/
theorem nonpositive_values_filtered (t : Node) (p : List Nat) :
    (∀ v, longestPrefixM t p = some v → 0 < v) ∧
    (∀ v ∈ findAllPrefixesM t p, 0 < v) ∧
    findAllPrefixesM t p =
      ((upCands t p).map
          (fun q => i32cast ((lookupVal (entriesN t) q).getD 0))).takeWhile
        (fun v => decide (0 < v)) := by
  refine ⟨?_, ?_, findAll_eq t p⟩
  · intro v hv
    rw [longestPrefixM_eq] at hv
    by_cases h : (treeUpRaw t p (searchUpState t p)).1 ≤ 0
    · rw [if_pos h] at hv
      exact absurd hv (by simp)
    · rw [if_neg h] at hv
      have := Option.some.inj hv
      omega
  · intro v hv
    rw [findAll_eq] at hv
    have := List.mem_takeWhile_imp hv
    simpa using this

/-- Witness for C10 on a concrete trie. -/
theorem nonpositive_values_filtered_inst :
    (0 : Int) < 3 ∧ (0 : Int) < 2 := by
  refine ⟨(nonpositive_values_filtered wtree [47, 97, 98, 99]).1 3 (by decide), ?_⟩
  exact (nonpositive_values_filtered wtree [47, 97, 98, 99]).2.1 2 (by decide)

/-- C3, counterexample: in `negTree`, the longest (indeed only) stored key
that is a first segment of the query `[97]` is `[97]` itself with value
`-5`, yet `longest_prefix` returns `None` rather than `Some (-5)`. -/
theorem longest_match_none_on_nonpositive_value :
    upCands negTree [97] = [[97]] ∧
    lookupVal (entriesN negTree) [97] = some (-5) ∧
    longestPrefixM negTree [97] ≠ some (-5) := by
  refine ⟨by decide, by decide, by decide⟩

/-- C3 (amended): provided every stored value is positive (and within
`i32` range), `longest_prefix` returns the value of the longest stored key
that is a byte-wise first segment of the query, and `None` when no stored
key is such a segment. -/
theorem longest_match_eq_deepest_stored (t : Node) (p : List Nat)
    (hv : ∀ e ∈ entriesN t, 0 < e.2 ∧ e.2 < 2 ^ 31) :
    longestPrefixM t p =
      ((upCands t p).head?).bind (fun q => lookupVal (entriesN t) q) := by
  have hfst := treeUpRaw_fst t p (searchUpState t p)
  rw [searchState_filter_eq] at hfst
  rw [longestPrefixM_eq]
  cases hh : (upCands t p).head? with
  | none =>
    rw [hh] at hfst
    have hfst2 : (treeUpRaw t p (searchUpState t p)).1 = -1 := hfst
    rw [hfst2]
    simp
  | some q =>
    rw [hh] at hfst
    have hfst2 : (treeUpRaw t p (searchUpState t p)).1 =
        i32cast ((lookupVal (entriesN t) q).getD 0) := hfst
    have hqmem : q ∈ upCands t p := List.mem_of_mem_head? (by rw [hh]; simp)
    obtain ⟨v, hl, hmem⟩ := lookupVal_of_mem_keys (mem_upCands.mp hqmem).2
    have hb := hv (q, v) hmem
    rw [hl] at hfst2
    simp only [Option.getD_some] at hfst2
    rw [i32cast_eq_self (by omega) hb.2] at hfst2
    rw [hfst2, if_neg (by omega)]
    simp [hl]

/-- Witness for the amended C3 on a concrete trie. -/
theorem longest_match_eq_deepest_stored_inst :
    longestPrefixM wtree [47, 97, 98, 99] =
      ((upCands wtree [47, 97, 98, 99]).head?).bind
        (fun q => lookupVal (entriesN wtree) q) :=
  longest_match_eq_deepest_stored wtree [47, 97, 98, 99] (by decide)

/-- C4, counterexample: in `negTree` the stored keys that are first
segments of the query `[97]` have values `[-5]`, but `find_all_prefixes`
returns `[]`, omitting the non-positive entry. -/
theorem all_matches_stops_at_nonpositive :
    (upCands negTree [97]).map (fun q => (lookupVal (entriesN negTree) q).getD 0) = [-5] ∧
    findAllPrefixesM negTree [97] = [] := by
  refine ⟨by decide, by decide⟩

/-- C4 (amended): provided every stored value is positive (and within
`i32` range), `find_all_prefixes` returns exactly the values of the
stored keys that are byte-wise first segments of the query, one each,
ordered longest to shortest. -/
theorem all_matches_eq_stored_cands (t : Node) (p : List Nat)
    (hv : ∀ e ∈ entriesN t, 0 < e.2 ∧ e.2 < 2 ^ 31) :
    findAllPrefixesM t p =
      (upCands t p).map (fun q => (lookupVal (entriesN t) q).getD 0) := by
  rw [findAll_eq]
  have hmap : (upCands t p).map (fun q => i32cast ((lookupVal (entriesN t) q).getD 0)) =
      (upCands t p).map (fun q => (lookupVal (entriesN t) q).getD 0) := by
    apply List.map_congr_left
    intro q hq
    obtain ⟨v, hl, hmem⟩ := lookupVal_of_mem_keys (mem_upCands.mp hq).2
    have hb := hv (q, v) hmem
    rw [hl]
    simp only [Option.getD_some]
    exact i32cast_eq_self (by omega) hb.2
  rw [hmap]
  apply List.takeWhile_eq_self_iff.mpr
  intro v hvmem
  obtain ⟨q, hq, rfl⟩ := List.mem_map.mp hvmem
  obtain ⟨w, hl, hmem⟩ := lookupVal_of_mem_keys (mem_upCands.mp hq).2
  have hb := hv (q, w) hmem
  rw [hl]
  simpa using hb.1

/-- Witness for the amended C4 on a concrete trie. -/
theorem all_matches_eq_stored_cands_inst :
    findAllPrefixesM wtree [47, 97, 98, 99] =
      (upCands wtree [47, 97, 98, 99]).map
        (fun q => (lookupVal (entriesN wtree) q).getD 0) :=
  all_matches_eq_stored_cands wtree [47, 97, 98, 99] (by decide)

/-- C2, counterexample: on the empty trie no stored key is at most the
query `[47]`, yet `search` still reports `true` — `tree_search_raw`
ignores the seek outcome and returns a non-null iterator pointer. -/
theorem search_true_on_empty_tree :
    ¬ (((searchM emptyNode [47]).2 = true) ↔
        ∃ k ∈ keysOf emptyNode, keyLE k [47] = true) := by
  intro h
  obtain ⟨k, hk, _⟩ := h.mp rfl
  rw [show keysOf emptyNode = [] from rfl] at hk
  exact absurd hk (List.not_mem_nil k)

/-- C2 (amended): `search` returns `true` for every trie and query (it
only repositions the iterator); when the trie stores no key at all, the
candidate stack is empty and the subsequent `tree_up_raw` reports
exhaustion (`-1`). -/
theorem search_always_true (t : Node) (p : List Nat) :
    (searchM t p).2 = true ∧
      (keysOf t = [] → (treeUpRaw t p (searchM t p).1).1 = -1) := by
  refine ⟨rfl, ?_⟩
  intro hkeys
  have h := treeUpRaw_fst t p (searchUpState t p)
  rw [searchState_filter_eq] at h
  have hnil : upCands t p = [] := by
    rw [List.eq_nil_iff_forall_not_mem]
    intro q hq
    have := (mem_upCands.mp hq).2
    rw [hkeys] at this
    simp at this
  rw [hnil] at h
  simpa using h

/-- Witness for the amended C2 at the empty trie. -/
theorem search_always_true_inst :
    (searchM emptyNode [47]).2 = true ∧
      (treeUpRaw emptyNode [47] (searchM emptyNode [47]).1).1 = -1 :=
  ⟨(search_always_true emptyNode [47]).1,
    (search_always_true emptyNode [47]).2 (by decide)⟩

/-! ## Termination of the retry loops (C9) -/

theorem upLoopFuel_complete (t : Node) (p : List Nat) :
    ∀ (st : List (List Nat)) (f : Nat), st.length < f →
      upLoopFuel t p f st = some (treeUpRaw t p st)
  | [], f, hf => by
    cases f with
    | zero => omega
    | succ f' => rfl
  | q :: rest, f, hf => by
    cases f with
    | zero => omega
    | succ f' =>
      by_cases hq : passB p q = true
      · simp [upLoopFuel, treeUpRaw, hq]
      · rw [upLoopFuel, treeUpRaw, if_neg hq, if_neg hq]
        exact upLoopFuel_complete t p rest f' (by simp at hf; omega)

theorem prevLoopFuel_complete (t : Node) (p : List Nat) :
    ∀ (st : List (List Nat)) (f : Nat), st.length < f →
      prevLoopFuel t p f st = some (radixPrevM t p st)
  | [], f, hf => by
    cases f with
    | zero => omega
    | succ f' => rfl
  | q :: rest, f, hf => by
    cases f with
    | zero => omega
    | succ f' =>
      by_cases hq : passB p q = true
      · simp [prevLoopFuel, radixPrevM, hq]
      · rw [prevLoopFuel, radixPrevM, if_neg hq, if_neg hq]
        exact prevLoopFuel_complete t p rest f' (by simp at hf; omega)

/-- C9: the retry loops of `tree_up_raw` and `radix_tree_prev` terminate
on every iterator state: each iteration strictly shortens the remaining
candidate stack, so the loop completes within `stack length + 1`
iterations of its body. -/
theorem up_and_prev_loops_terminate :
    (∀ (t : Node) (p : List Nat) (st : List (List Nat)),
        upLoopFuel t p (st.length + 1) st = some (treeUpRaw t p st)) ∧
    (∀ (t : Node) (p : List Nat) (st : List (List Nat)),
        prevLoopFuel t p (st.length + 1) st = some (radixPrevM t p st)) :=
  ⟨fun t p st => upLoopFuel_complete t p st (st.length + 1) (by omega),
    fun t p st => prevLoopFuel_complete t p st (st.length + 1) (by omega)⟩

/-! ## Ascending iteration (C5) -/

theorem ltAllB_mem : ∀ {l : NodeList} {b b' : Nat},
    ltAllB b l = true → b' ∈ bytesL l → b < b'
  | .nil, _, _, _, h => by simp [bytesL] at h
  | .cons b0 r0 c0 tl, b, b', hlt, h => by
    simp only [ltAllB, Bool.and_eq_true, decide_eq_true_eq] at hlt
    rcases List.mem_cons.mp h with rfl | h
    · exact hlt.1
    · exact ltAllB_mem hlt.2 h

theorem key_head_of_mem : ∀ {l : NodeList} {k : List Nat},
    k ∈ (entriesL l).map Prod.fst → ∃ b, b ∈ bytesL l ∧ ∃ k', k = b :: k'
  | .nil, k, h => by simp [entriesL] at h
  | .cons b r c tl, k, h => by
    rw [entriesL, List.map_append, List.mem_append] at h
    rcases h with h | h
    · rw [List.map_map] at h
      obtain ⟨e, _, he⟩ := List.mem_map.mp h
      exact ⟨b, by simp [bytesL], r ++ e.1, by rw [← he]; rfl⟩
    · obtain ⟨b', hb', k', hk'⟩ := key_head_of_mem h
      exact ⟨b', by simp [bytesL, hb'], k', hk'⟩

mutual

theorem nodupN : ∀ n : Node, wfN n = true → (keysOf n).Nodup
  | .mk v cs, h => by
    rw [wfN] at h
    rw [keysOf, show entriesN (Node.mk v cs) =
      (match v with | some x => [(([] : List Nat), x)] | none => []) ++ entriesL cs from rfl]
    cases v with
    | none => simpa using nodupL cs h
    | some x =>
      rw [List.map_append, List.map_cons]
      simp only [List.map_nil, List.nil_append, List.singleton_append, List.nodup_cons]
      refine ⟨?_, nodupL cs h⟩
      intro hmem
      obtain ⟨b, _, k', hk'⟩ := key_head_of_mem hmem
      exact absurd hk' (by simp)

theorem nodupL : ∀ l : NodeList, wfL l = true → ((entriesL l).map Prod.fst).Nodup
  | .nil, _ => by simp [entriesL]
  | .cons b r c tl, h => by
    rw [wfL] at h
    simp only [Bool.and_eq_true] at h
    obtain ⟨⟨hlt, hc⟩, htl⟩ := h
    rw [entriesL, List.map_append, List.map_map]
    refine List.Nodup.append ?_ (nodupL tl htl) ?_
    · have : (Prod.fst ∘ fun e : List Nat × Int => (b :: r ++ e.1, e.2)) =
          (fun k => b :: r ++ k) ∘ Prod.fst := rfl
      rw [this, ← List.map_map]
      refine (nodupN c hc).map ?_
      intro x y hxy
      simpa using hxy
    · intro k hk1 hk2
      obtain ⟨e, _, he⟩ := List.mem_map.mp hk1
      obtain ⟨b', hb', k', hk'⟩ := key_head_of_mem hk2
      have : k = b :: (r ++ e.1) := by rw [← he]; rfl
      rw [this] at hk'
      have hbb : b = b' := by injection hk'
      exact absurd hbb (Nat.ne_of_lt (ltAllB_mem hlt hb'))

end

theorem ascKeys_perm (t : Node) : (ascKeys t).Perm (keysOf t) :=
  List.perm_insertionSort _ _

theorem ascKeys_strict_sorted (t : Node) (hwf : wfN t = true) :
    List.Pairwise keyLTP (ascKeys t) := by
  haveI : IsTotal (List Nat) keyLEP := ⟨fun a b => keyLE_total a b⟩
  haveI : IsTrans (List Nat) keyLEP := ⟨fun _ _ _ => keyLE_trans⟩
  have hsorted : List.Sorted keyLEP (ascKeys t) := List.sorted_insertionSort _ _
  have hnodup : (ascKeys t).Nodup := ((ascKeys_perm t).symm).nodup (nodupN t hwf)
  exact (hsorted.and hnodup).imp (fun h => keyLT_of_keyLE_of_ne h.1 h.2)

theorem collectNext_eq (t : Node) (p : List Nat) :
    ∀ (st : List (List Nat)) (f : Nat), st.length < f →
      (∀ q ∈ st, i32cast ((lookupVal (entriesN t) q).getD 0) ≠ -1) →
      collectRun (radixNextM t p) f st =
        (st.takeWhile (passB p)).map
          (fun q => i32cast ((lookupVal (entriesN t) q).getD 0))
  | [], f, hf, _ => by
    cases f with
    | zero => omega
    | succ f' => rfl
  | q :: rest, f, hf, hne => by
    cases f with
    | zero => omega
    | succ f' =>
      by_cases hq : passB p q = true
      · rw [collectRun]
        have hstep : radixNextM t p (q :: rest) =
            (i32cast ((lookupVal (entriesN t) q).getD 0), rest) := by
          rw [radixNextM, if_pos hq]
        rw [hstep, if_neg (by simpa using hne q (by simp))]
        rw [List.takeWhile_cons, if_pos hq, List.map_cons]
        rw [collectNext_eq t p rest f' (by simp at hf; omega)
          (fun q' hq' => hne q' (List.mem_cons_of_mem _ hq'))]
      · rw [collectRun]
        have hstep : radixNextM t p (q :: rest) = (-1, rest) := by
          rw [radixNextM, if_neg hq]
        rw [hstep]
        simp only [if_pos rfl]
        rw [List.takeWhile_cons, if_neg hq]
        rfl

theorem collectPrev_eq (t : Node) (p : List Nat) :
    ∀ (st : List (List Nat)) (f : Nat), st.length < f →
      (∀ q ∈ st, i32cast ((lookupVal (entriesN t) q).getD 0) ≠ -1) →
      collectRun (radixPrevM t p) f st =
        (st.filter (passB p)).map
          (fun q => i32cast ((lookupVal (entriesN t) q).getD 0))
  | [], f, hf, _ => by
    cases f with
    | zero => omega
    | succ f' => rfl
  | q :: rest, f, hf, hne => by
    cases f with
    | zero => omega
    | succ f' =>
      by_cases hq : passB p q = true
      · rw [collectRun]
        have hstep : radixPrevM t p (q :: rest) =
            (i32cast ((lookupVal (entriesN t) q).getD 0), rest) := by
          rw [radixPrevM, if_pos hq]
        rw [hstep, if_neg (by simpa using hne q (by simp))]
        rw [List.filter_cons, if_pos hq, List.map_cons]
        rw [collectPrev_eq t p rest f' (by simp at hf; omega)
          (fun q' hq' => hne q' (List.mem_cons_of_mem _ hq'))]
      · have hstep : radixPrevM t p (q :: rest) = radixPrevM t p rest := by
          rw [radixPrevM, if_neg hq]
        have hskip : collectRun (radixPrevM t p) (f' + 1) (q :: rest) =
            collectRun (radixPrevM t p) (f' + 1) rest := by
          rw [collectRun, collectRun, hstep]
        rw [hskip, List.filter_cons, if_neg (by simpa using hq)]
        exact collectPrev_eq t p rest (f' + 1) (by simp at hf; omega)
          (fun q' hq' => hne q' (List.mem_cons_of_mem _ hq'))

/-- C5, counterexample: `abTree` stores keys `[97]` and `[98]`, but
successive `radix_tree_next` calls from a fresh iterator with query `[97]`
return only `[1]` and then report exhaustion: the filter (no retry loop)
cuts the enumeration at the first stored key that is not a byte-wise first
segment of the query, omitting `[98] ↦ 2`. -/
theorem next_iteration_omits_key :
    keysOf abTree = [[97], [98]] ∧
    nextRun abTree [97] = [1] ∧
    nextRun abTree [97] ≠
      (ascKeys abTree).map (fun q => (lookupVal (entriesN abTree) q).getD 0) :=
  ⟨by decide, by decide, by decide⟩

/-- C5 (amended): for a well-formed trie with positive `i32` values, the
stored keys enumerate in strict ascending lexicographic order
(`ascKeys`); successive `radix_tree_next` calls return the values of the
ascending enumeration truncated at the first key that is not a byte-wise
first segment of the query buffer (later matching keys are omitted),
while successive `radix_tree_prev` calls return the values of exactly the
matching keys, in descending order; both report exhaustion as `-1`. -/
theorem iteration_runs_characterized (t : Node) (p : List Nat)
    (hwf : wfN t = true) (hv : ∀ e ∈ entriesN t, 0 < e.2 ∧ e.2 < 2 ^ 31) :
    nextRun t p =
      ((ascKeys t).takeWhile (passB p)).map
        (fun q => (lookupVal (entriesN t) q).getD 0) ∧
    prevRun t p =
      (((ascKeys t).reverse).filter (passB p)).map
        (fun q => (lookupVal (entriesN t) q).getD 0) ∧
    List.Pairwise keyLTP (ascKeys t) ∧
    (ascKeys t).Perm (keysOf t) := by
  have hval : ∀ q ∈ keysOf t, ∃ v, lookupVal (entriesN t) q = some v ∧
      0 < v ∧ v < 2 ^ 31 := by
    intro q hq
    obtain ⟨v, hl, hmem⟩ := lookupVal_of_mem_keys hq
    exact ⟨v, hl, (hv (q, v) hmem).1, (hv (q, v) hmem).2⟩
  have hmemasc : ∀ q ∈ ascKeys t, q ∈ keysOf t := fun q hq =>
    (ascKeys_perm t).subset hq
  have hne : ∀ q ∈ ascKeys t,
      i32cast ((lookupVal (entriesN t) q).getD 0) ≠ -1 := by
    intro q hq
    obtain ⟨v, hl, h1, h2⟩ := hval q (hmemasc q hq)
    rw [hl, Option.getD_some, i32cast_eq_self (by omega) h2]
    omega
  have hcast : ∀ q ∈ ascKeys t,
      i32cast ((lookupVal (entriesN t) q).getD 0) =
        (lookupVal (entriesN t) q).getD 0 := by
    intro q hq
    obtain ⟨v, hl, h1, h2⟩ := hval q (hmemasc q hq)
    rw [hl, Option.getD_some, i32cast_eq_self (by omega) h2]
  refine ⟨?_, ?_, ascKeys_strict_sorted t hwf, ascKeys_perm t⟩
  · rw [nextRun, collectNext_eq t p (ascKeys t) ((ascKeys t).length + 1) (by omega) hne]
    exact List.map_congr_left (fun q hq =>
      hcast q ((List.takeWhile_sublist _).subset hq))
  · rw [prevRun, collectPrev_eq t p ((ascKeys t).reverse) ((ascKeys t).length + 1)
      (by rw [List.length_reverse]; omega)
      (fun q hq => hne q (List.mem_reverse.mp hq))]
    exact List.map_congr_left (fun q hq =>
      hcast q (List.mem_reverse.mp ((List.filter_sublist _).subset hq)))

/-- Witness for the amended C5 on a concrete trie. -/
theorem iteration_runs_characterized_inst :
    nextRun wtree [47, 97] =
      ((ascKeys wtree).takeWhile (passB [47, 97])).map
        (fun q => (lookupVal (entriesN wtree) q).getD 0) ∧
    prevRun wtree [47, 97] =
      (((ascKeys wtree).reverse).filter (passB [47, 97])).map
        (fun q => (lookupVal (entriesN wtree) q).getD 0) ∧
    List.Pairwise keyLTP (ascKeys wtree) ∧
    (ascKeys wtree).Perm (keysOf wtree) :=
  iteration_runs_characterized wtree [47, 97] (by decide) (by decide)

/-! ## Child-list and label lemmas -/

theorem lookupC_insertC_self : ∀ {cs : NodeList} {b : Nat} (k : List Nat) (v : Int),
    lookupC cs b = none →
    lookupC (insertC cs b k v) b = some (k, .mk (some v) .nil)
  | .nil, b, k, v, _ => by simp [insertC, lookupC]
  | .cons b0 r0 c0 tl, b, k, v, h => by
    rw [lookupC] at h
    have hb0 : ¬ b0 = b := by
      intro he
      rw [if_pos he] at h
      exact absurd h (by simp)
    rw [if_neg hb0] at h
    rw [insertC]
    by_cases hlt : b < b0
    · rw [if_pos hlt, lookupC, if_pos rfl]
    · rw [if_neg hlt, lookupC, if_neg hb0]
      exact lookupC_insertC_self k v h

theorem lookupC_insertC_ne : ∀ {cs : NodeList} {b b' : Nat} (k : List Nat) (v : Int),
    b' ≠ b → lookupC (insertC cs b k v) b' = lookupC cs b'
  | .nil, b, b', k, v, hne => by
    simp [insertC, lookupC, Ne.symm hne]
  | .cons b0 r0 c0 tl, b, b', k, v, hne => by
    rw [insertC]
    by_cases hlt : b < b0
    · rw [if_pos hlt, lookupC, if_neg (fun h => hne h.symm)]
    · rw [if_neg hlt, lookupC, lookupC]
      by_cases h0 : b0 = b'
      · rw [if_pos h0, if_pos h0]
      · rw [if_neg h0, if_neg h0]
        exact lookupC_insertC_ne k v hne

theorem lookupC_replaceC_self : ∀ {cs : NodeList} {b : Nat} {e : List Nat × Node}
    (r' : List Nat) (c' : Node), lookupC cs b = some e →
    lookupC (replaceC cs b r' c') b = some (r', c')
  | .nil, b, e, r', c', h => by simp [lookupC] at h
  | .cons b0 r0 c0 tl, b, e, r', c', h => by
    rw [lookupC] at h
    rw [replaceC]
    by_cases h0 : b0 = b
    · rw [if_pos h0, lookupC, if_pos h0]
    · rw [if_neg h0] at h
      rw [if_neg h0, lookupC, if_neg h0]
      exact lookupC_replaceC_self r' c' h

theorem lookupC_replaceC_ne : ∀ {cs : NodeList} {b b' : Nat} (r' : List Nat) (c' : Node),
    b' ≠ b → lookupC (replaceC cs b r' c') b' = lookupC cs b'
  | .nil, _, _, _, _, _ => rfl
  | .cons b0 r0 c0 tl, b, b', r', c', hne => by
    rw [replaceC]
    by_cases h0 : b0 = b
    · rw [if_pos h0, lookupC, lookupC, if_neg (h0 ▸ fun h => hne h.symm),
        if_neg (h0 ▸ fun h => hne h.symm)]
    · rw [if_neg h0, lookupC, lookupC]
      by_cases h1 : b0 = b'
      · rw [if_pos h1, if_pos h1]
      · rw [if_neg h1, if_neg h1]
        exact lookupC_replaceC_ne r' c' hne

theorem lookupC_none_of_ltAllB : ∀ {cs : NodeList} {b : Nat},
    ltAllB b cs = true → lookupC cs b = none
  | .nil, _, _ => rfl
  | .cons b0 r0 c0 tl, b, h => by
    rw [ltAllB] at h
    simp only [Bool.and_eq_true, decide_eq_true_eq] at h
    rw [lookupC, if_neg (by omega)]
    exact lookupC_none_of_ltAllB h.2

theorem lookupC_eraseC_self : ∀ {cs : NodeList} {b : Nat},
    wfL cs = true → lookupC (eraseC cs b) b = none
  | .nil, _, _ => rfl
  | .cons b0 r0 c0 tl, b, h => by
    rw [wfL] at h
    simp only [Bool.and_eq_true] at h
    rw [eraseC]
    by_cases h0 : b0 = b
    · rw [if_pos h0]
      exact lookupC_none_of_ltAllB (h0 ▸ h.1.1)
    · rw [if_neg h0, lookupC, if_neg h0]
      exact lookupC_eraseC_self h.2

theorem lookupC_eraseC_ne : ∀ {cs : NodeList} {b b' : Nat},
    b' ≠ b → lookupC (eraseC cs b) b' = lookupC cs b'
  | .nil, _, _, _ => rfl
  | .cons b0 r0 c0 tl, b, b', hne => by
    rw [eraseC]
    by_cases h0 : b0 = b
    · rw [if_pos h0, lookupC, if_neg (h0 ▸ fun h => hne h.symm)]
    · rw [if_neg h0, lookupC, lookupC]
      by_cases h1 : b0 = b'
      · rw [if_pos h1, if_pos h1]
      · rw [if_neg h1, if_neg h1]
        exact lookupC_eraseC_ne hne

theorem wfN_of_lookupC : ∀ {cs : NodeList} {b : Nat} {rest : List Nat} {c : Node},
    wfL cs = true → lookupC cs b = some (rest, c) → wfN c = true
  | .nil, b, rest, c, _, h => by simp [lookupC] at h
  | .cons b0 r0 c0 tl, b, rest, c, hwf, h => by
    rw [wfL] at hwf
    simp only [Bool.and_eq_true] at hwf
    rw [lookupC] at h
    by_cases h0 : b0 = b
    · rw [if_pos h0] at h
      obtain ⟨_, rfl⟩ : rest = r0 ∧ c = c0 := by
        constructor <;> · injection h with h2; injection h2 <;> simp_all
      exact hwf.1.2
    · rw [if_neg h0] at h
      exact wfN_of_lookupC hwf.2 h

/-- The longest common first segment is a first segment of both lists. -/
theorem lcp_pre_left : ∀ (a b : List Nat), lcp a b <+: a
  | [], _ => by simp [lcp]
  | _ :: _, [] => by simp [lcp]
  | x :: xs, y :: ys => by
    rw [lcp]
    by_cases h : x = y
    · rw [if_pos h]
      exact List.cons_prefix_cons.mpr ⟨rfl, lcp_pre_left xs ys⟩
    · rw [if_neg h]
      exact List.nil_prefix

theorem lcp_pre_right : ∀ (a b : List Nat), lcp a b <+: b
  | [], _ => by simp [lcp]
  | _ :: _, [] => by simp [lcp]
  | x :: xs, y :: ys => by
    rw [lcp]
    by_cases h : x = y
    · rw [if_pos h, h]
      exact List.cons_prefix_cons.mpr ⟨rfl, lcp_pre_right xs ys⟩
    · rw [if_neg h]
      exact List.nil_prefix

/-- When the edge label is not a first segment of the key, the label has a
leftover byte after the common part. -/
theorem lcp_left_remainder {a b : List Nat} (h : ¬ a <+: b) :
    a.drop (lcp a b).length ≠ [] := by
  intro hnil
  have hle : a.length ≤ (lcp a b).length := by
    have := List.drop_eq_nil_iff.mp hnil
    omega
  have := List.IsPrefix.eq_of_length_le (lcp_pre_left a b) hle
  rw [← this] at h
  exact h (lcp_pre_right a b)

/-- The bytes right after the common part differ. -/
theorem lcp_heads_ne : ∀ {a b : List Nat} {x y : Nat} {xs ys : List Nat},
    a.drop (lcp a b).length = x :: xs → b.drop (lcp a b).length = y :: ys → x ≠ y
  | [], b, x, y, xs, ys, ha, _ => by simp [lcp] at ha
  | _ :: _, [], x, y, xs, ys, _, hb => by simp [lcp] at hb
  | a0 :: as, b0 :: bs, x, y, xs, ys, ha, hb => by
    by_cases h : a0 = b0
    · rw [lcp, if_pos h] at ha hb
      simp only [List.length_cons, List.drop_succ_cons] at ha hb
      exact lcp_heads_ne ha hb
    · rw [lcp, if_neg h] at ha hb
      simp only [List.length_nil, List.drop_zero] at ha hb
      injection ha with ha1 _
      injection hb with hb1 _
      rw [← ha1, ← hb1]
      exact h

/-- Splitting a prefix test over an appended label. -/
theorem pre_append_iff : ∀ (l1 l2 k : List Nat),
    (l1 ++ l2 <+: k) ↔ (l1 <+: k ∧ l2 <+: k.drop l1.length)
  | [], l2, k => by simp
  | a :: l1, l2, [] => by
    constructor
    · intro h
      exact absurd (List.eq_nil_of_prefix_nil h) (by simp)
    · rintro ⟨h, _⟩
      exact absurd (List.eq_nil_of_prefix_nil h) (by simp)
  | a :: l1, l2, c :: k' => by
    rw [List.cons_append, List.cons_prefix_cons, List.cons_prefix_cons]
    simp only [List.length_cons, List.drop_succ_cons]
    rw [pre_append_iff l1 l2 k']
    tauto

/-- A list is its common part with another followed by the remainder. -/
theorem lcp_append_drop (a b : List Nat) :
    (lcp a b) ++ a.drop (lcp a b).length = a := by
  obtain ⟨tl, htl⟩ := lcp_pre_left a b
  calc (lcp a b) ++ a.drop (lcp a b).length
      = (lcp a b) ++ ((lcp a b ++ tl).drop (lcp a b).length) := by rw [htl]
    _ = (lcp a b) ++ tl := by rw [List.drop_left]
    _ = a := htl

theorem drop_eq_drop_of_pre {rest x y : List Nat} (hx : rest <+: x) (hy : rest <+: y)
    (h : x.drop rest.length = y.drop rest.length) : x = y := by
  obtain ⟨x', rfl⟩ := hx
  obtain ⟨y', rfl⟩ := hy
  rw [List.drop_left, List.drop_left] at h
  rw [h]

/-! ## Exact lookup after insertion -/

theorem findGo_congr : ∀ (f g : Nat) (n : Node) (k : List Nat),
    k.length < f → k.length < g → findGo f n k = findGo g n k
  | 0, _, _, k, hf, _ => absurd hf (by omega)
  | _ + 1, 0, _, k, _, hg => absurd hg (by omega)
  | _ + 1, _ + 1, .mk v cs, [], _, _ => rfl
  | f + 1, g + 1, .mk v cs, b :: k1, hf, hg => by
    simp only [findGo]
    cases h : lookupC cs b with
    | none => rfl
    | some e =>
      obtain ⟨rest, c⟩ := e
      simp only
      by_cases hp : rest.isPrefixOf k1
      · rw [if_pos hp, if_pos hp]
        refine findGo_congr f g c (k1.drop rest.length) ?_ ?_ <;>
          · simp only [List.length_cons] at hf hg
            simp only [List.length_drop]
            omega
      · rw [if_neg hp, if_neg hp]

theorem find_ins_self : ∀ (f : Nat) (n : Node) (k : List Nat) (v : Int),
    k.length < f → findGo f (insGo f n k v).1 k = some v
  | 0, _, k, _, hf => absurd hf (by omega)
  | f + 1, .mk v0 cs, [], v, _ => rfl
  | f + 1, .mk v0 cs, b :: k1, v, hf => by
    have hk1 : k1.length < f := by simp only [List.length_cons] at hf; omega
    cases h : lookupC cs b with
    | none =>
      simp only [insGo, h, findGo, lookupC_insertC_self k1 v h]
      rw [if_pos (by simp)]
      rw [List.drop_length]
      cases f with
      | zero => omega
      | succ f' => rfl
    | some e =>
      obtain ⟨rest, c⟩ := e
      by_cases hp : rest.isPrefixOf k1
      · simp only [insGo, h, if_pos hp, findGo,
          lookupC_replaceC_self rest (insGo f c (k1.drop rest.length) v).1 h]
        exact find_ins_self f c (k1.drop rest.length) v
          (by simp only [List.length_drop]; omega)
      · have hrem := lcp_left_remainder (fun hh => hp (preIff.mpr hh))
        simp only [insGo, h, if_neg hp]
        cases hrt : rest.drop (lcp rest k1).length with
        | nil => exact absurd hrt hrem
        | cons r1 r1s =>
          have hcompre : (lcp rest k1).isPrefixOf k1 =  true :=
            preIff.mpr (lcp_pre_right rest k1)
          cases hkt : k1.drop (lcp rest k1).length with
          | nil =>
            have hk1eq : k1 = lcp rest k1 := by
              have hle : k1.length ≤ (lcp rest k1).length := by
                have := List.drop_eq_nil_iff.mp hkt
                omega
              exact (List.IsPrefix.eq_of_length_le (lcp_pre_right rest k1) hle).symm
            simp only [findGo, lookupC_replaceC_self _ _ h]
            rw [if_pos hcompre, ← hk1eq, List.drop_length]
            cases f with
            | zero => omega
            | succ f' => rfl
          | cons q1 q1s =>
            have hne : r1 ≠ q1 := lcp_heads_ne hrt hkt
            simp only [findGo, lookupC_replaceC_self _ _ h]
            rw [if_pos hcompre, hkt]
            cases f with
            | zero => omega
            | succ f' =>
              have hlook : lookupC
                  (if q1 < r1 then
                    NodeList.cons q1 q1s (Node.mk (some v) NodeList.nil)
                      (NodeList.cons r1 r1s c NodeList.nil)
                  else
                    NodeList.cons r1 r1s c
                      (NodeList.cons q1 q1s (Node.mk (some v) NodeList.nil) NodeList.nil))
                  q1 = some (q1s, Node.mk (some v) NodeList.nil) := by
                by_cases hq : q1 < r1
                · rw [if_pos hq, lookupC, if_pos rfl]
                · rw [if_neg hq, lookupC, if_neg hne, lookupC, if_pos rfl]
              simp only [findGo, hlook]
              rw [if_pos (by simp), List.drop_length]
              cases f' with
              | zero =>
                have : k1.length = (lcp rest k1).length + (q1s.length + 1) := by
                  have h2 := congrArg List.length hkt
                  simp only [List.length_drop, List.length_cons] at h2
                  have := (lcp_pre_right rest k1).length_le
                  omega
                omega
              | succ f'' => rfl

theorem findGo_nil_val (g : Nat) (v : Option Int) (cs : NodeList) (hg : 0 < g) :
    findGo g (.mk v cs) [] = v := by
  cases g with
  | zero => omega
  | succ g' => rfl

theorem findGo_leaf_cons (g : Nat) (v : Option Int) (x : Nat) (xs : List Nat) :
    findGo g (.mk v .nil) (x :: xs) = none := by
  cases g with
  | zero => rfl
  | succ g' => simp [findGo, lookupC]

theorem lookupC_two (r1 q1 : Nat) (r1s q1s : List Nat) (c d : Node) (hne : r1 ≠ q1)
    (w1 : Nat) :
    lookupC
      (if q1 < r1 then NodeList.cons q1 q1s d (NodeList.cons r1 r1s c NodeList.nil)
       else NodeList.cons r1 r1s c (NodeList.cons q1 q1s d NodeList.nil)) w1 =
      (if r1 = w1 then some (r1s, c)
       else if q1 = w1 then some (q1s, d) else none) := by
  by_cases hq : q1 < r1
  · rw [if_pos hq, lookupC]
    by_cases h1 : q1 = w1
    · rw [if_pos h1, if_neg (by omega), if_pos h1]
    · rw [if_neg h1, lookupC]
      by_cases h2 : r1 = w1
      · rw [if_pos h2, if_pos h2]
      · rw [if_neg h2, if_neg h2, if_neg h1, lookupC]
  · rw [if_neg hq, lookupC]
    by_cases h2 : r1 = w1
    · rw [if_pos h2, if_pos h2]
    · rw [if_neg h2, if_neg h2, lookupC]
      by_cases h1 : q1 = w1
      · rw [if_pos h1, if_pos h1]
      · rw [if_neg h1, if_neg h1, lookupC]

theorem lcp_comm : ∀ (a b : List Nat), lcp a b = lcp b a
  | [], b => by cases b <;> rfl
  | _ :: _, [] => rfl
  | a0 :: as, b0 :: bs => by
    rw [lcp, lcp]
    by_cases h : a0 = b0
    · rw [if_pos h, if_pos h.symm, h, lcp_comm as bs]
    · rw [if_neg h, if_neg (fun hh => h hh.symm)]

theorem findGo_single (g : Nat) (v : Option Int) (r1 : Nat) (r1s : List Nat) (c : Node)
    (w1 : Nat) (ws : List Nat) :
    findGo (g + 1) (.mk v (.cons r1 r1s c .nil)) (w1 :: ws) =
      if r1 = w1 then
        (if r1s.isPrefixOf ws then findGo g c (ws.drop r1s.length) else none)
      else none := by
  show (match lookupC (NodeList.cons r1 r1s c NodeList.nil) w1 with
    | none => none
    | some (rest, cc) =>
      if rest.isPrefixOf ws then findGo g cc (ws.drop rest.length) else none) = _
  simp only [lookupC]
  by_cases h : r1 = w1
  · simp [h]
  · simp [h]

theorem findGo_two (g : Nat) (v : Option Int) (r1 q1 : Nat) (r1s q1s : List Nat)
    (c d : Node) (hne : r1 ≠ q1) (w1 : Nat) (ws : List Nat) :
    findGo (g + 1)
      (.mk v (if q1 < r1 then NodeList.cons q1 q1s d (NodeList.cons r1 r1s c NodeList.nil)
              else NodeList.cons r1 r1s c (NodeList.cons q1 q1s d NodeList.nil)))
      (w1 :: ws) =
      (if r1 = w1 then
        (if r1s.isPrefixOf ws then findGo g c (ws.drop r1s.length) else none)
      else if q1 = w1 then
        (if q1s.isPrefixOf ws then findGo g d (ws.drop q1s.length) else none)
      else none) := by
  have hsc := lookupC_two r1 q1 r1s q1s c d hne w1
  by_cases hq : q1 < r1
  · rw [if_pos hq]
    rw [if_pos hq] at hsc
    show (match lookupC (NodeList.cons q1 q1s d (NodeList.cons r1 r1s c NodeList.nil)) w1 with
      | none => none
      | some (rest, cc) =>
        if rest.isPrefixOf ws then findGo g cc (ws.drop rest.length) else none) = _
    rw [hsc]
    by_cases h1 : r1 = w1
    · simp [h1]
    · by_cases h2 : q1 = w1 <;> simp [h1, h2]
  · rw [if_neg hq]
    rw [if_neg hq] at hsc
    show (match lookupC (NodeList.cons r1 r1s c (NodeList.cons q1 q1s d NodeList.nil)) w1 with
      | none => none
      | some (rest, cc) =>
        if rest.isPrefixOf ws then findGo g cc (ws.drop rest.length) else none) = _
    rw [hsc]
    by_cases h1 : r1 = w1
    · simp [h1]
    · by_cases h2 : q1 = w1 <;> simp [h1, h2]

theorem findGo_cons_ext (g : Nat) (v1 v2 : Option Int) (cs1 cs2 : NodeList)
    (b : Nat) (k : List Nat) (h : lookupC cs1 b = lookupC cs2 b) :
    findGo (g + 1) (.mk v1 cs1) (b :: k) = findGo (g + 1) (.mk v2 cs2) (b :: k) := by
  show (match lookupC cs1 b with
    | none => none
    | some (rest, c) =>
      if rest.isPrefixOf k then findGo g c (k.drop rest.length) else none) =
    (match lookupC cs2 b with
    | none => none
    | some (rest, c) =>
      if rest.isPrefixOf k then findGo g c (k.drop rest.length) else none)
  rw [h]

theorem find_ins_other : ∀ (f g : Nat) (n : Node) (k k' : List Nat) (v : Int),
    k.length < f → k'.length < g → k' ≠ k →
    findGo g (insGo f n k v).1 k' = findGo g n k'
  | 0, _, _, k, _, _, hf, _, _ => absurd hf (by omega)
  | f + 1, g, .mk v0 cs, [], k', v, hf, hg, hne => by
    cases k' with
    | nil => exact absurd rfl hne
    | cons b' k1' =>
      cases g with
      | zero => exact absurd hg (by omega)
      | succ g' => rfl
  | f + 1, g, .mk v0 cs, b :: k1, k', v, hf, hg, hne => by
    have hk1 : k1.length < f := by simp only [List.length_cons] at hf; omega
    cases hl : lookupC cs b with
    | none =>
      simp only [insGo, hl]
      cases k' with
      | nil =>
        cases g with
        | zero => exact absurd hg (by omega)
        | succ g' => rfl
      | cons b' k1' =>
        cases g with
        | zero => exact absurd hg (by omega)
        | succ g' =>
          by_cases hb' : b' = b
          · subst hb'
            have hne1 : k1' ≠ k1 := fun h => hne (by rw [h])
            simp only [findGo, lookupC_insertC_self k1 v hl, hl]
            by_cases hp : k1.isPrefixOf k1'
            · rw [if_pos hp]
              cases hd : k1'.drop k1.length with
              | nil =>
                have : k1 = k1' := List.IsPrefix.eq_of_length_le
                  (preIff.mp hp)
                  (by have := List.drop_eq_nil_iff.mp hd; omega)
                exact absurd this.symm hne1
              | cons x xs => rw [findGo_leaf_cons]
            · rw [if_neg hp]
          · exact findGo_cons_ext g' v0 v0 _ cs b' k1' (lookupC_insertC_ne k1 v hb')
    | some e =>
      obtain ⟨rest, c⟩ := e
      by_cases hp : rest.isPrefixOf k1
      · simp only [insGo, hl, if_pos hp]
        cases k' with
        | nil =>
          cases g with
          | zero => exact absurd hg (by omega)
          | succ g' => rfl
        | cons b' k1' =>
          cases g with
          | zero => exact absurd hg (by omega)
          | succ g' =>
            by_cases hb' : b' = b
            · subst hb'
              have hne1 : k1' ≠ k1 := fun h => hne (by rw [h])
              simp only [findGo,
                lookupC_replaceC_self rest (insGo f c (k1.drop rest.length) v).1 hl, hl]
              by_cases hp' : rest.isPrefixOf k1'
              · rw [if_pos hp', if_pos hp']
                refine find_ins_other f g' c (k1.drop rest.length) (k1'.drop rest.length) v
                  (by simp only [List.length_drop]; omega)
                  (by simp only [List.length_cons] at hg
                      simp only [List.length_drop]; omega)
                  ?_
                intro he
                exact hne1 (drop_eq_drop_of_pre (preIff.mp hp')
                  (preIff.mp hp) he)
              · rw [if_neg hp', if_neg hp']
            · exact findGo_cons_ext g' v0 v0 _ cs b' k1'
                (lookupC_replaceC_ne rest (insGo f c (k1.drop rest.length) v).1 hb')
      · have hrem := lcp_left_remainder (fun hh => hp (preIff.mpr hh))
        simp only [insGo, hl, if_neg hp]
        cases hrt : rest.drop (lcp rest k1).length with
        | nil => exact absurd hrt hrem
        | cons r1 r1s =>
          have hrest_dec : rest = lcp rest k1 ++ r1 :: r1s := by
            have := lcp_append_drop rest k1
            rw [hrt] at this
            exact this.symm
          cases hkt : k1.drop (lcp rest k1).length with
          | nil =>
            have hk1com : lcp rest k1 = k1 := List.IsPrefix.eq_of_length_le
              (lcp_pre_right rest k1)
              (by have := List.drop_eq_nil_iff.mp hkt; omega)
            cases k' with
            | nil =>
              cases g with
              | zero => exact absurd hg (by omega)
              | succ g' => rfl
            | cons b' k1' =>
              cases g with
              | zero => exact absurd hg (by omega)
              | succ g' =>
                by_cases hb' : b' = b
                · subst hb'
                  have hne1 : k1' ≠ k1 := fun h => hne (by rw [h])
                  simp only [findGo, lookupC_replaceC_self _ _ hl, hl]
                  by_cases hcom : (lcp rest k1).isPrefixOf k1'
                  · rw [if_pos hcom]
                    cases hw : k1'.drop (lcp rest k1).length with
                    | nil =>
                      have : lcp rest k1 = k1' := List.IsPrefix.eq_of_length_le
                        (preIff.mp hcom)
                        (by have := List.drop_eq_nil_iff.mp hw; omega)
                      exact absurd (this.symm.trans hk1com) hne1
                    | cons w1 ws =>
                      simp only [List.length_cons] at hg
                      have hlck : (lcp rest k1).length ≤ k1'.length :=
                        (preIff.mp hcom).length_le
                      have hlws : k1'.length = (lcp rest k1).length + 1 + ws.length := by
                        have h2 := congrArg List.length hw
                        simp only [List.length_drop, List.length_cons] at h2
                        omega
                      cases g' with
                      | zero => omega
                      | succ g'' =>
                        rw [findGo_single]
                        by_cases hw1 : r1 = w1
                        · rw [if_pos hw1]
                          subst hw1
                          have hiff : rest.isPrefixOf k1' = true ↔ r1s <+: ws := by
                            rw [preIff, hrest_dec,
                              pre_append_iff]
                            constructor
                            · rintro ⟨_, h2⟩
                              rw [hw] at h2
                              exact (List.cons_prefix_cons.mp h2).2
                            · intro h2
                              refine ⟨preIff.mp hcom, ?_⟩
                              rw [hw]
                              exact List.cons_prefix_cons.mpr ⟨rfl, h2⟩
                          by_cases hrs : r1s.isPrefixOf ws
                          · rw [if_pos hrs,
                              if_pos (hiff.mpr (preIff.mp hrs))]
                            have hkey : k1'.drop rest.length = ws.drop r1s.length := by
                              rw [hrest_dec]
                              rw [List.length_append, ← List.drop_drop]
                              rw [hw]
                              simp
                            rw [hkey]
                            refine findGo_congr g'' (g'' + 1) c (ws.drop r1s.length) ?_ ?_ <;>
                              · simp only [List.length_drop]
                                omega
                          · rw [if_neg hrs, if_neg (fun hh => hrs
                              (preIff.mpr (hiff.mp hh)))]
                        · rw [if_neg hw1, if_neg (fun hh => ?_)]
                          have h2 := (preIff.mp hh)
                          rw [hrest_dec, pre_append_iff] at h2
                          have h3 := h2.2
                          rw [hw] at h3
                          exact hw1 (List.cons_prefix_cons.mp h3).1
                  · rw [if_neg hcom, if_neg (fun hh => hcom ?_)]
                    rw [preIff]
                    exact List.IsPrefix.trans (lcp_pre_left rest k1)
                      (preIff.mp hh)
                · exact findGo_cons_ext g' v0 v0 _ cs b' k1'
                    (lookupC_replaceC_ne (lcp rest k1)
                      (Node.mk (some v) (NodeList.cons r1 r1s c NodeList.nil)) hb')
          | cons q1 q1s =>
            have hk1_dec : k1 = lcp rest k1 ++ q1 :: q1s := by
              have h0 := lcp_append_drop k1 rest
              rw [lcp_comm k1 rest, hkt] at h0
              exact h0.symm
            have hne_rq : r1 ≠ q1 := lcp_heads_ne hrt hkt
            cases k' with
            | nil =>
              cases g with
              | zero => exact absurd hg (by omega)
              | succ g' => rfl
            | cons b' k1' =>
              cases g with
              | zero => exact absurd hg (by omega)
              | succ g' =>
                by_cases hb' : b' = b
                · subst hb'
                  have hne1 : k1' ≠ k1 := fun h => hne (by rw [h])
                  simp only [findGo, lookupC_replaceC_self _ _ hl, hl]
                  by_cases hcom : (lcp rest k1).isPrefixOf k1'
                  · rw [if_pos hcom]
                    cases hw : k1'.drop (lcp rest k1).length with
                    | nil =>
                      have hk1'eq : lcp rest k1 = k1' := List.IsPrefix.eq_of_length_le
                        (preIff.mp hcom)
                        (by have := List.drop_eq_nil_iff.mp hw; omega)
                      rw [findGo_nil_val g' none _ (by
                        simp only [List.length_cons] at hg; omega)]
                      rw [if_neg (fun hh => ?_)]
                      have h2 := (preIff.mp hh).length_le
                      have h3 := congrArg List.length hrest_dec
                      have h4 := congrArg List.length hk1'eq
                      simp only [List.length_append, List.length_cons] at h3
                      omega
                    | cons w1 ws =>
                      simp only [List.length_cons] at hg
                      have hlck : (lcp rest k1).length ≤ k1'.length :=
                        (preIff.mp hcom).length_le
                      have hlws : k1'.length = (lcp rest k1).length + 1 + ws.length := by
                        have h2 := congrArg List.length hw
                        simp only [List.length_drop, List.length_cons] at h2
                        omega
                      cases g' with
                      | zero => omega
                      | succ g'' =>
                        rw [findGo_two g'' none r1 q1 r1s q1s c (Node.mk (some v) NodeList.nil)
                          hne_rq w1 ws]
                        by_cases hw1 : r1 = w1
                        · rw [if_pos hw1]
                          subst hw1
                          have hiff : rest.isPrefixOf k1' = true ↔ r1s <+: ws := by
                            rw [preIff, hrest_dec,
                              pre_append_iff]
                            constructor
                            · rintro ⟨_, h2⟩
                              rw [hw] at h2
                              exact (List.cons_prefix_cons.mp h2).2
                            · intro h2
                              refine ⟨preIff.mp hcom, ?_⟩
                              rw [hw]
                              exact List.cons_prefix_cons.mpr ⟨rfl, h2⟩
                          by_cases hrs : r1s.isPrefixOf ws
                          · rw [if_pos hrs,
                              if_pos (hiff.mpr (preIff.mp hrs))]
                            have hkey : k1'.drop rest.length = ws.drop r1s.length := by
                              rw [hrest_dec]
                              rw [List.length_append, ← List.drop_drop]
                              rw [hw]
                              simp
                            rw [hkey]
                            refine findGo_congr g'' (g'' + 1) c (ws.drop r1s.length) ?_ ?_ <;>
                              · simp only [List.length_drop]
                                omega
                          · rw [if_neg hrs, if_neg (fun hh => hrs
                              (preIff.mpr (hiff.mp hh)))]
                        · rw [if_neg hw1]
                          have hnrest : ¬ rest.isPrefixOf k1' = true := by
                            intro hh
                            have h2 := (preIff.mp hh)
                            rw [hrest_dec, pre_append_iff] at h2
                            have h3 := h2.2
                            rw [hw] at h3
                            exact hw1 (List.cons_prefix_cons.mp h3).1
                          by_cases hw1q : q1 = w1
                          · rw [if_pos hw1q]
                            by_cases hqs : q1s.isPrefixOf ws
                            · rw [if_pos hqs]
                              cases hz : ws.drop q1s.length with
                              | nil =>
                                have hwsq : q1s = ws := List.IsPrefix.eq_of_length_le
                                  (preIff.mp hqs)
                                  (by have := List.drop_eq_nil_iff.mp hz; omega)
                                obtain ⟨tl, htl⟩ := preIff.mp hcom
                                have htl2 : tl = w1 :: ws := by
                                  rw [← htl, List.drop_left] at hw
                                  exact hw
                                have : k1' = k1 := by
                                  rw [← htl, htl2, ← hw1q, ← hwsq]
                                  exact hk1_dec.symm
                                exact absurd this hne1
                              | cons z zs =>
                                rw [findGo_leaf_cons, if_neg hnrest]
                            · rw [if_neg hqs, if_neg hnrest]
                          · rw [if_neg hw1q, if_neg hnrest]
                  · rw [if_neg hcom, if_neg (fun hh => hcom ?_)]
                    rw [preIff]
                    exact List.IsPrefix.trans (lcp_pre_left rest k1)
                      (preIff.mp hh)
                · exact findGo_cons_ext g' v0 v0 _ cs b' k1' (lookupC_replaceC_ne _ _ hb')

theorem findGo_cons_none (f : Nat) (v0 : Option Int) (cs : NodeList) (b : Nat)
    (k1 : List Nat) (hl : lookupC cs b = none) :
    findGo (f + 1) (.mk v0 cs) (b :: k1) = none := by
  show (match lookupC cs b with
    | none => none
    | some (rest, c) =>
      if rest.isPrefixOf k1 then findGo f c (k1.drop rest.length) else none) = none
  rw [hl]

theorem findGo_cons_some (f : Nat) (v0 : Option Int) (cs : NodeList) (b : Nat)
    (k1 rest : List Nat) (c : Node) (hl : lookupC cs b = some (rest, c)) :
    findGo (f + 1) (.mk v0 cs) (b :: k1) =
      if rest.isPrefixOf k1 then findGo f c (k1.drop rest.length) else none := by
  show (match lookupC cs b with
    | none => none
    | some (rest, c) =>
      if rest.isPrefixOf k1 then findGo f c (k1.drop rest.length) else none) = _
  rw [hl]

theorem insGo_snd : ∀ (f : Nat) (n : Node) (k : List Nat) (v : Int), k.length < f →
    (insGo f n k v).2 = findGo f n k
  | 0, _, k, _, hf => absurd hf (by omega)
  | f + 1, .mk v0 cs, [], v, _ => rfl
  | f + 1, .mk v0 cs, b :: k1, v, hf => by
    have hk1 : k1.length < f := by simp only [List.length_cons] at hf; omega
    cases hl : lookupC cs b with
    | none =>
      simp only [insGo, hl]
      rw [findGo_cons_none f v0 cs b k1 hl]
    | some e =>
      obtain ⟨rest, c⟩ := e
      rw [findGo_cons_some f v0 cs b k1 rest c hl]
      by_cases hp : rest.isPrefixOf k1
      · simp only [insGo, hl, if_pos hp]
        exact insGo_snd f c (k1.drop rest.length) v
          (by simp only [List.length_drop]; omega)
      · have hrem := lcp_left_remainder (fun hh => hp (preIff.mpr hh))
        simp only [insGo, hl, if_neg hp]
        cases hrt : rest.drop (lcp rest k1).length with
        | nil => exact absurd hrt hrem
        | cons r1 r1s =>
          cases hkt : k1.drop (lcp rest k1).length with
          | nil => rfl
          | cons q1 q1s => rfl

theorem entriesL_replaceC_len : ∀ {cs : NodeList} {b : Nat} {rest : List Nat} {c : Node}
    (r' : List Nat) (c' : Node), lookupC cs b = some (rest, c) →
    (entriesL (replaceC cs b r' c')).length + (entriesN c).length =
      (entriesL cs).length + (entriesN c').length
  | .nil, b, rest, c, r', c', h => by simp [lookupC] at h
  | .cons b0 r0 c0 tl, b, rest, c, r', c', h => by
    rw [lookupC] at h
    rw [replaceC]
    by_cases h0 : b0 = b
    · rw [if_pos h0] at h
      have hc : c = c0 := by
        injection h with h2
        injection h2 with _ h3
        exact h3.symm
      subst hc
      rw [if_pos h0, entriesL, entriesL]
      simp only [List.length_append, List.length_map]
      omega
    · rw [if_neg h0] at h
      rw [if_neg h0, entriesL, entriesL]
      simp only [List.length_append, List.length_map]
      have := entriesL_replaceC_len r' c' h
      omega

theorem ins_entries_len : ∀ (f : Nat) (n : Node) (k : List Nat) (v : Int), k.length < f →
    findGo f n k ≠ none →
    (entriesN (insGo f n k v).1).length = (entriesN n).length
  | 0, _, k, _, hf, _ => absurd hf (by omega)
  | f + 1, .mk v0 cs, [], v, _, hsome => by
    cases v0 with
    | none => exact absurd rfl hsome
    | some x => rfl
  | f + 1, .mk v0 cs, b :: k1, v, hf, hsome => by
    have hk1 : k1.length < f := by simp only [List.length_cons] at hf; omega
    cases hl : lookupC cs b with
    | none => exact absurd (findGo_cons_none f v0 cs b k1 hl) hsome
    | some e =>
      obtain ⟨rest, c⟩ := e
      rw [findGo_cons_some f v0 cs b k1 rest c hl] at hsome
      by_cases hp : rest.isPrefixOf k1
      · rw [if_pos hp] at hsome
        simp only [insGo, hl, if_pos hp]
        rw [show entriesN (Node.mk v0 (replaceC cs b rest
            (insGo f c (k1.drop rest.length) v).1)) =
          (match v0 with | some x => [(([] : List Nat), x)] | none => []) ++
            entriesL (replaceC cs b rest (insGo f c (k1.drop rest.length) v).1) from rfl]
        rw [show entriesN (Node.mk v0 cs) =
          (match v0 with | some x => [(([] : List Nat), x)] | none => []) ++
            entriesL cs from rfl]
        simp only [List.length_append]
        have h1 := entriesL_replaceC_len rest (insGo f c (k1.drop rest.length) v).1 hl
        have h2 := ins_entries_len f c (k1.drop rest.length) v
          (by simp only [List.length_drop]; omega) hsome
        omega
      · rw [if_neg hp] at hsome
        exact absurd rfl hsome

/-! ## Insert sequences and the exported exact lookup (C1, C6) -/

theorem find_empty (k : List Nat) : find emptyNode k = none := by
  cases k with
  | nil => rfl
  | cons b k1 => exact findGo_cons_none k1.length none .nil b k1 rfl

theorem find_buildFrom : ∀ (ps : List (List Nat × Int)) (t : Node) (k : List Nat),
    find (ps.foldl (fun t e => (treeInsertRaw t e.1 e.2).1) t) k =
      (match assocLast ps k with
       | some v => some v
       | none => find t k)
  | [], t, k => rfl
  | e :: tl, t, k => by
    rw [List.foldl_cons, find_buildFrom tl ((treeInsertRaw t e.1 e.2).1) k]
    rw [show assocLast (e :: tl) k =
      (match assocLast tl k with
       | some v => some v
       | none => if e.1 = k then some e.2 else none) from rfl]
    cases ha : assocLast tl k with
    | some v => rfl
    | none =>
      by_cases hk : e.1 = k
      · rw [if_pos hk]
        subst hk
        show find (insTree t e.1 e.2).1 e.1 = _
        rw [show find (insTree t e.1 e.2).1 e.1 = some e.2 from
          find_ins_self (e.1.length + 1) t e.1 e.2 (by omega)]
      · rw [if_neg hk]
        show find (insTree t e.1 e.2).1 k = _
        rw [show find (insTree t e.1 e.2).1 k = find t k from
          find_ins_other (e.1.length + 1) (k.length + 1) t e.1 k e.2 (by omega) (by omega)
            (fun h => hk h.symm)]

theorem assocLast_eq_none : ∀ {ps : List (List Nat × Int)} {k : List Nat},
    k ∉ ps.map Prod.fst → assocLast ps k = none
  | [], _, _ => rfl
  | e :: tl, k, h => by
    have h1 : e.1 ≠ k := fun he => h (by rw [← he]; simp)
    have h2 : k ∉ tl.map Prod.fst := fun he => h (by simp; right; simpa using he)
    rw [show assocLast (e :: tl) k =
      (match assocLast tl k with
       | some v => some v
       | none => if e.1 = k then some e.2 else none) from rfl,
      assocLast_eq_none h2]
    rw [if_neg h1]

theorem assocLast_of_mem_nodup : ∀ {ps : List (List Nat × Int)} {e : List Nat × Int},
    (ps.map Prod.fst).Nodup → e ∈ ps → assocLast ps e.1 = some e.2
  | [], e, _, he => by simp at he
  | p :: tl, e, hnd, he => by
    rw [List.map_cons, List.nodup_cons] at hnd
    rw [show assocLast (p :: tl) e.1 =
      (match assocLast tl e.1 with
       | some v => some v
       | none => if p.1 = e.1 then some p.2 else none) from rfl]
    rcases List.mem_cons.mp he with rfl | he
    · rw [assocLast_eq_none hnd.1]
      rw [if_pos rfl]
    · rw [assocLast_of_mem_nodup hnd.2 he]

theorem findExact_of_find {t : Node} {k : List Nat} {v : Int} (h : find t k = some v)
    (h0 : v ≠ 0) (h1 : -2 ^ 31 ≤ v) (h2 : v < 2 ^ 31) : findExactM t k = some v := by
  have hrax : raxFindM t k = v := by
    rw [show raxFindM t k =
      (match find t k with | some d => d | none => notFoundAddr) from rfl, h]
  have hraw : treeFindRaw t k = v := by
    rw [show treeFindRaw t k =
      (if raxFindM t k = notFoundAddr then 0 else raxFindM t k) from rfl, hrax,
      if_neg (show ¬ v = notFoundAddr by rw [notFoundAddr]; omega)]
  rw [show findExactM t k =
    (if treeFindRaw t k = 0 then none
     else some (i32cast (treeFindRaw t k))) from rfl, hraw, if_neg h0,
    i32cast_eq_self h1 h2]

theorem findExact_none {t : Node} {k : List Nat} (h : find t k = none) :
    findExactM t k = none := by
  have hrax : raxFindM t k = notFoundAddr := by
    rw [show raxFindM t k =
      (match find t k with | some d => d | none => notFoundAddr) from rfl, h]
  have hraw : treeFindRaw t k = 0 := by
    rw [show treeFindRaw t k =
      (if raxFindM t k = notFoundAddr then 0 else raxFindM t k) from rfl, hrax,
      if_pos rfl]
  rw [show findExactM t k =
    (if treeFindRaw t k = 0 then none
     else some (i32cast (treeFindRaw t k))) from rfl, hraw, if_pos rfl]

/-- C1, counterexample: inserting value `0` stores a null data pointer, so
`find_exact` reports the key as absent — the "absent" representation
collides with the storable value `0`. -/
theorem find_zero_value_reported_absent :
    findExactM (treeInsertRaw emptyNode [97] 0).1 [97] = none ∧
    ¬ findExactM (treeInsertRaw emptyNode [97] 0).1 [97] = some 0 :=
  ⟨by decide, by decide⟩

/-- C1 (amended): for every insertion sequence with unique keys whose
values are non-zero `i32` values, `find_exact` returns each inserted
key's value and reports never-inserted keys as absent.  The value `0` is
excluded: its encoding (a null data pointer) is the same as the absent
representation. -/
theorem find_exact_after_unique_inserts (ps : List (List Nat × Int))
    (hk : (ps.map Prod.fst).Nodup)
    (hv : ∀ e ∈ ps, e.2 ≠ 0 ∧ -2 ^ 31 ≤ e.2 ∧ e.2 < 2 ^ 31) :
    (∀ e ∈ ps, findExactM (buildTree ps) e.1 = some e.2) ∧
    (∀ k, k ∉ ps.map Prod.fst → findExactM (buildTree ps) k = none) := by
  constructor
  · intro e he
    have hfind : find (buildTree ps) e.1 = some e.2 := by
      rw [buildTree, find_buildFrom ps emptyNode e.1, assocLast_of_mem_nodup hk he]
    exact findExact_of_find hfind (hv e he).1 (hv e he).2.1 (hv e he).2.2
  · intro k hkk
    have hfind : find (buildTree ps) k = none := by
      rw [buildTree, find_buildFrom ps emptyNode k, assocLast_eq_none hkk]
      exact find_empty k
    exact findExact_none hfind

/-- Witness for the amended C1 on a concrete insertion sequence. -/
theorem find_exact_after_unique_inserts_inst :
    findExactM (buildTree [([97], 5), ([98], -7)]) [97] = some 5 ∧
    findExactM (buildTree [([97], 5), ([98], -7)]) [99] = none :=
  ⟨(find_exact_after_unique_inserts [([97], 5), ([98], -7)] (by decide) (by decide)).1
      ([97], 5) (by decide),
    (find_exact_after_unique_inserts [([97], 5), ([98], -7)] (by decide) (by decide)).2
      [99] (by decide)⟩

/-- C6, counterexample: the caller-visible result of re-inserting a key is
identical whatever the previous value was — `tree_insert_raw` passes a
null old-value out-pointer and `insert` returns only `Ok(())`, so the
previous value is not returned to the caller. -/
theorem insert_return_independent_of_old :
    (insertRes (treeInsertRaw emptyNode [97] 1).1 [97] 100).2 =
      (insertRes (treeInsertRaw emptyNode [97] 2).1 [97] 100).2 ∧
    find (treeInsertRaw emptyNode [97] 1).1 [97] ≠
      find (treeInsertRaw emptyNode [97] 2).1 [97] :=
  ⟨rfl, by decide⟩

/-- C6 (amended): re-inserting an existing key succeeds (status `0`),
updates the value in place, and leaves the stored entry count unchanged;
the previous value is produced by the modelled core insert but the
wrapper discards it (see the counterexample). -/
theorem insert_existing_updates_in_place (t : Node) (k : List Nat) (v w : Int)
    (hw : find t k = some w) :
    (treeInsertRaw t k v).2 = 0 ∧
    find (treeInsertRaw t k v).1 k = some v ∧
    (entriesN (treeInsertRaw t k v).1).length = (entriesN t).length ∧
    (insTree t k v).2 = some w := by
  refine ⟨rfl, ?_, ?_, ?_⟩
  · exact find_ins_self (k.length + 1) t k v (by omega)
  · exact ins_entries_len (k.length + 1) t k v (by omega)
      (by rw [show findGo (k.length + 1) t k = find t k from rfl, hw]; simp)
  · rw [show (insTree t k v).2 = (insGo (k.length + 1) t k v).2 from rfl,
      insGo_snd (k.length + 1) t k v (by omega)]
    exact hw

/-- Witness for the amended C6 on a concrete trie. -/
theorem insert_existing_updates_in_place_inst :
    (treeInsertRaw wtree [47] 9).2 = 0 ∧
    find (treeInsertRaw wtree [47] 9).1 [47] = some 9 ∧
    (entriesN (treeInsertRaw wtree [47] 9).1).length = (entriesN wtree).length ∧
    (insTree wtree [47] 9).2 = some 1 :=
  insert_existing_updates_in_place wtree [47] 9 1 (by decide)

/-! ## Removal (C7, C8) -/

theorem remGo_nil (f : Nat) (v0 : Option Int) (cs : NodeList) :
    remGo (f + 1) (.mk v0 cs) [] =
      (match v0 with
       | none => none
       | some _ => some (normNode (.mk none cs))) := rfl

theorem remGo_cons_none (f : Nat) (v0 : Option Int) (cs : NodeList) (b : Nat)
    (k1 : List Nat) (hl : lookupC cs b = none) :
    remGo (f + 1) (.mk v0 cs) (b :: k1) = none := by
  show (match lookupC cs b with
    | none => none
    | some (rest, c) =>
      if rest.isPrefixOf k1 then
        match remGo f c (k1.drop rest.length) with
        | none => none
        | some none => some (normNode (.mk v0 (eraseC cs b)))
        | some (some (ext, c')) =>
          some (normNode (.mk v0 (replaceC cs b (rest ++ ext) c')))
      else none) = none
  rw [hl]

theorem remGo_cons_some (f : Nat) (v0 : Option Int) (cs : NodeList) (b : Nat)
    (k1 rest : List Nat) (c : Node) (hl : lookupC cs b = some (rest, c)) :
    remGo (f + 1) (.mk v0 cs) (b :: k1) =
      (if rest.isPrefixOf k1 then
        match remGo f c (k1.drop rest.length) with
        | none => none
        | some none => some (normNode (.mk v0 (eraseC cs b)))
        | some (some (ext, c')) =>
          some (normNode (.mk v0 (replaceC cs b (rest ++ ext) c')))
      else none) := by
  show (match lookupC cs b with
    | none => none
    | some (rest, c) =>
      if rest.isPrefixOf k1 then
        match remGo f c (k1.drop rest.length) with
        | none => none
        | some none => some (normNode (.mk v0 (eraseC cs b)))
        | some (some (ext, c')) =>
          some (normNode (.mk v0 (replaceC cs b (rest ++ ext) c')))
      else none) = _
  rw [hl]

theorem remTree_cons_some (v0 : Option Int) (cs : NodeList) (b : Nat)
    (k1 rest : List Nat) (c : Node) (hl : lookupC cs b = some (rest, c)) :
    remTree (.mk v0 cs) (b :: k1) =
      (if rest.isPrefixOf k1 then
        match remGo (k1.length + 1) c (k1.drop rest.length) with
        | none => none
        | some none => some (.mk v0 (eraseC cs b))
        | some (some (ext, c')) => some (.mk v0 (replaceC cs b (rest ++ ext) c'))
      else none) := by
  show (match lookupC cs b with
    | none => none
    | some (rest, c) =>
      if rest.isPrefixOf k1 then
        match remGo (k1.length + 1) c (k1.drop rest.length) with
        | none => none
        | some none => some (Node.mk v0 (eraseC cs b))
        | some (some (ext, c')) => some (Node.mk v0 (replaceC cs b (rest ++ ext) c'))
      else none) = _
  rw [hl]

theorem remTree_cons_none (v0 : Option Int) (cs : NodeList) (b : Nat)
    (k1 : List Nat) (hl : lookupC cs b = none) :
    remTree (.mk v0 cs) (b :: k1) = none := by
  show (match lookupC cs b with
    | none => none
    | some (rest, c) =>
      if rest.isPrefixOf k1 then
        match remGo (k1.length + 1) c (k1.drop rest.length) with
        | none => none
        | some none => some (Node.mk v0 (eraseC cs b))
        | some (some (ext, c')) => some (Node.mk v0 (replaceC cs b (rest ++ ext) c'))
      else none) = none
  rw [hl]

theorem bytesL_eraseC_not_mem : ∀ {cs : NodeList} {b : Nat},
    wfL cs = true → b ∉ bytesL (eraseC cs b)
  | .nil, _, _ => by simp [eraseC, bytesL]
  | .cons b0 r0 c0 tl, b, h => by
    rw [wfL] at h
    simp only [Bool.and_eq_true] at h
    rw [eraseC]
    by_cases h0 : b0 = b
    · rw [if_pos h0]
      intro hmem
      exact absurd (ltAllB_mem (h0 ▸ h.1.1) hmem) (by omega)
    · rw [if_neg h0, bytesL]
      intro hmem
      rcases List.mem_cons.mp hmem with h1 | h1
      · exact h0 h1.symm
      · exact bytesL_eraseC_not_mem h.2 h1

theorem wfL_of_wfN_kids : ∀ {v0 : Option Int} {cs : NodeList},
    wfN (.mk v0 cs) = true → wfL cs = true := fun h => h

theorem replaceC_single : ∀ {cs : NodeList} {b : Nat} {e : List Nat × Node}
    {r' : List Nat} {c' : Node} {b2 : Nat} {r2 : List Nat} {c2 : Node},
    lookupC cs b = some e →
    replaceC cs b r' c' = .cons b2 r2 c2 .nil →
    b2 = b ∧ r2 = r' ∧ c2 = c'
  | .nil, b, e, _, _, _, _, _, hl, _ => by simp [lookupC] at hl
  | .cons b0 r0 c0 tl, b, e, r', c', b2, r2, c2, hl, hr => by
    rw [lookupC] at hl
    rw [replaceC] at hr
    by_cases h0 : b0 = b
    · rw [if_pos h0] at hr
      injection hr with h1 h2 h3 h4
      exact ⟨h1.symm.trans h0, h2.symm, h3.symm⟩
    · rw [if_neg h0] at hl
      rw [if_neg h0] at hr
      injection hr with h1 h2 h3 h4
      exfalso
      cases tl with
      | nil => rw [lookupC] at hl; exact absurd hl (by simp)
      | cons b3 r3 c3 tl3 =>
        rw [replaceC] at h4
        by_cases h5 : b3 = b
        · rw [if_pos h5] at h4
          exact absurd h4 (by intro hh; injection hh)
        · rw [if_neg h5] at h4
          exact absurd h4 (by intro hh; injection hh)

theorem remGo_isSome : ∀ (f : Nat) (n : Node) (k : List Nat), k.length < f →
    (remGo f n k).isSome = (findGo f n k).isSome
  | 0, _, k, hf => absurd hf (by omega)
  | f + 1, .mk v0 cs, [], _ => by
    rw [remGo_nil]
    cases v0 with
    | none => rfl
    | some x => rfl
  | f + 1, .mk v0 cs, b :: k1, hf => by
    have hk1 : k1.length < f := by simp only [List.length_cons] at hf; omega
    cases hl : lookupC cs b with
    | none =>
      rw [remGo_cons_none f v0 cs b k1 hl, findGo_cons_none f v0 cs b k1 hl]
      rfl
    | some e =>
      obtain ⟨rest, c⟩ := e
      rw [remGo_cons_some f v0 cs b k1 rest c hl, findGo_cons_some f v0 cs b k1 rest c hl]
      by_cases hp : rest.isPrefixOf k1
      · rw [if_pos hp, if_pos hp]
        have hih := remGo_isSome f c (k1.drop rest.length)
          (by simp only [List.length_drop]; omega)
        cases hrec : remGo f c (k1.drop rest.length) with
        | none =>
          rw [hrec] at hih
          exact hih
        | some o =>
          rw [hrec] at hih
          cases o with
          | none => exact hih
          | some p => exact hih
      · rw [if_neg hp, if_neg hp]
        rfl

theorem rem_find_none : ∀ (f : Nat) (n : Node) (k : List Nat), k.length < f →
    wfN n = true → ∀ (ext : List Nat) (c' : Node), remGo f n k = some (some (ext, c')) →
      ∀ g : Nat, k.length < g → findVia g ext c' k = none
  | 0, _, k, hf, _, _, _, _, _, _ => absurd hf (by omega)
  | f + 1, .mk v0 cs, [], _, hwf, ext, c', hres, g, hg => by
    rw [remGo_nil] at hres
    cases v0 with
    | none => exact absurd hres (by simp)
    | some x =>
      have hres2 : normNode (.mk none cs) = some (ext, c') := by
        have h1 : some (normNode (Node.mk none cs)) = some (some (ext, c')) := hres
        exact Option.some.inj h1
      cases cs with
      | nil =>
        have h2 : (none : Option (List Nat × Node)) = some (ext, c') := hres2
        exact absurd h2 (by simp)
      | cons b2 r2 c2 tl2 =>
        cases tl2 with
        | nil =>
          have h2 : (some ((b2 :: r2 : List Nat), c2) : Option (List Nat × Node)) =
              some (ext, c') := hres2
          injection Option.some.inj h2 with ha hb
          rw [← ha, ← hb, findVia]
          simp [List.isPrefixOf]
        | cons b3 r3 c3 tl3 =>
          have h2 : (some (([] : List Nat),
              Node.mk none (NodeList.cons b2 r2 c2 (NodeList.cons b3 r3 c3 tl3))) :
              Option (List Nat × Node)) = some (ext, c') := hres2
          injection Option.some.inj h2 with ha hb
          rw [← ha, ← hb, findVia]
          simp only [List.isPrefixOf, if_true]
          rw [List.length_nil, List.drop_zero]
          exact findGo_nil_val g none _ (by omega)
  | f + 1, .mk v0 cs, b :: k1, hf, hwf, ext, c', hres, g, hg => by
    have hk1 : k1.length < f := by simp only [List.length_cons] at hf; omega
    have hg1 : k1.length + 1 < g := by simpa using hg
    cases hl : lookupC cs b with
    | none =>
      rw [remGo_cons_none f v0 cs b k1 hl] at hres
      exact absurd hres (by simp)
    | some e =>
      obtain ⟨rest, c⟩ := e
      rw [remGo_cons_some f v0 cs b k1 rest c hl] at hres
      by_cases hp : rest.isPrefixOf k1
      · rw [if_pos hp] at hres
        have hwfc : wfN c = true := wfN_of_lookupC (wfL_of_wfN_kids hwf) hl
        cases hrec : remGo f c (k1.drop rest.length) with
        | none =>
          rw [hrec] at hres
          exact absurd hres (by simp)
        | some o =>
          rw [hrec] at hres
          cases o with
          | none =>
            have hres2 : normNode (.mk v0 (eraseC cs b)) = some (ext, c') :=
              Option.some.inj hres
            have hkeep : ∀ (w : Option Int) (csx : NodeList),
                normNode (.mk w csx) = some (ext, c') →
                (ext = [] ∧ c' = .mk w csx) ∨
                (∃ b2 r2 c2, w = none ∧ csx = .cons b2 r2 c2 .nil ∧
                  ext = b2 :: r2 ∧ c' = c2) := by
              intro w csx hn
              cases w with
              | some y =>
                have h2 : (some (([] : List Nat), Node.mk (some y) csx) :
                    Option (List Nat × Node)) = some (ext, c') := hn
                injection Option.some.inj h2 with ha hb
                exact Or.inl ⟨ha.symm, hb.symm⟩
              | none =>
                cases csx with
                | nil =>
                  have h2 : (none : Option (List Nat × Node)) = some (ext, c') := hn
                  exact absurd h2 (by simp)
                | cons b2 r2 c2 tl2 =>
                  cases tl2 with
                  | nil =>
                    have h2 : (some ((b2 :: r2 : List Nat), c2) :
                        Option (List Nat × Node)) = some (ext, c') := hn
                    injection Option.some.inj h2 with ha hb
                    exact Or.inr ⟨b2, r2, c2, rfl, rfl, ha.symm, hb.symm⟩
                  | cons b3 r3 c3 tl3 =>
                    have h2 : (some (([] : List Nat),
                        Node.mk none (NodeList.cons b2 r2 c2 (NodeList.cons b3 r3 c3 tl3))) :
                        Option (List Nat × Node)) = some (ext, c') := hn
                    injection Option.some.inj h2 with ha hb
                    exact Or.inl ⟨ha.symm, by rw [← hb]⟩
            rcases hkeep v0 (eraseC cs b) hres2 with ⟨hext, hc'⟩ | ⟨b2, r2, c2, _, hcs, hext, hc'⟩
            · rw [hext, hc', findVia]
              simp only [List.isPrefixOf, if_true]
              rw [List.length_nil, List.drop_zero]
              cases g with
              | zero => omega
              | succ g' =>
                exact findGo_cons_none g' v0 _ b k1
                  (lookupC_eraseC_self (wfL_of_wfN_kids hwf))
            · have hb2 : b2 ≠ b := by
                intro he
                apply bytesL_eraseC_not_mem (wfL_of_wfN_kids hwf) (b := b)
                rw [hcs, bytesL, he]
                exact List.mem_cons_self _ _
              rw [hext, hc', findVia]
              rw [if_neg (fun hh => ?_)]
              simp only [List.isPrefixOf, Bool.and_eq_true, beq_iff_eq] at hh
              exact hb2 hh.1
          | some p =>
            obtain ⟨ext0, c0⟩ := p
            have hih := rem_find_none f c (k1.drop rest.length)
              (by simp only [List.length_drop]; omega) hwfc ext0 c0 hrec
            have hres2 : normNode (.mk v0 (replaceC cs b (rest ++ ext0) c0)) =
                some (ext, c') := Option.some.inj hres
            have hmain : ∀ g', (k1.drop rest.length).length < g' →
                ((rest ++ ext0).isPrefixOf k1 = true →
                  findGo g' c0 (k1.drop (rest ++ ext0).length) = none) := by
              intro g' hg' hpre
              have hpp := preIff.mp hpre
              rw [pre_append_iff] at hpp
              have hfv := hih g' hg'
              rw [findVia, if_pos (preIff.mpr hpp.2)] at hfv
              rw [List.length_append, ← List.drop_drop]
              exact hfv
            have hkeep : ∀ (w : Option Int) (csx : NodeList),
                normNode (.mk w csx) = some (ext, c') →
                (ext = [] ∧ c' = .mk w csx) ∨
                (∃ b2 r2 c2, w = none ∧ csx = .cons b2 r2 c2 .nil ∧
                  ext = b2 :: r2 ∧ c' = c2) := by
              intro w csx hn
              cases w with
              | some y =>
                have h2 : (some (([] : List Nat), Node.mk (some y) csx) :
                    Option (List Nat × Node)) = some (ext, c') := hn
                injection Option.some.inj h2 with ha hb
                exact Or.inl ⟨ha.symm, hb.symm⟩
              | none =>
                cases csx with
                | nil =>
                  have h2 : (none : Option (List Nat × Node)) = some (ext, c') := hn
                  exact absurd h2 (by simp)
                | cons b2 r2 c2 tl2 =>
                  cases tl2 with
                  | nil =>
                    have h2 : (some ((b2 :: r2 : List Nat), c2) :
                        Option (List Nat × Node)) = some (ext, c') := hn
                    injection Option.some.inj h2 with ha hb
                    exact Or.inr ⟨b2, r2, c2, rfl, rfl, ha.symm, hb.symm⟩
                  | cons b3 r3 c3 tl3 =>
                    have h2 : (some (([] : List Nat),
                        Node.mk none (NodeList.cons b2 r2 c2 (NodeList.cons b3 r3 c3 tl3))) :
                        Option (List Nat × Node)) = some (ext, c') := hn
                    injection Option.some.inj h2 with ha hb
                    exact Or.inl ⟨ha.symm, by rw [← hb]⟩
            rcases hkeep v0 (replaceC cs b (rest ++ ext0) c0) hres2 with
              ⟨hext, hc'⟩ | ⟨b2, r2, c2, _, hcs, hext, hc'⟩
            · rw [hext, hc', findVia]
              simp only [List.isPrefixOf, if_true]
              rw [List.length_nil, List.drop_zero]
              cases g with
              | zero => omega
              | succ g' =>
                rw [findGo_cons_some g' v0 _ b k1 (rest ++ ext0) c0
                  (lookupC_replaceC_self (rest ++ ext0) c0 hl)]
                by_cases hpre : (rest ++ ext0).isPrefixOf k1
                · rw [if_pos hpre]
                  exact hmain g' (by simp only [List.length_drop]; omega) hpre
                · rw [if_neg hpre]
            · obtain ⟨hb2, hr2, hc2⟩ := replaceC_single hl hcs
              rw [hext, hc', hb2, hr2, hc2, findVia]
              by_cases hpre : (rest ++ ext0).isPrefixOf k1
              · rw [if_pos (by
                  simp only [List.isPrefixOf, Bool.and_eq_true, beq_iff_eq]
                  exact ⟨trivial, hpre⟩)]
                rw [List.length_cons, List.drop_succ_cons]
                exact hmain g (by simp only [List.length_drop]; omega) hpre
              · rw [if_neg (fun hh => ?_)]
                simp only [List.isPrefixOf, Bool.and_eq_true, beq_iff_eq] at hh
                exact hpre hh.2
      · rw [if_neg hp] at hres
        exact absurd hres (by simp)

theorem remTree_isSome (t : Node) (k : List Nat) :
    (remTree t k).isSome = (find t k).isSome := by
  obtain ⟨v0, cs⟩ := t
  cases k with
  | nil =>
    cases v0 with
    | none => rfl
    | some x => rfl
  | cons b k1 =>
    cases hl : lookupC cs b with
    | none =>
      rw [remTree_cons_none v0 cs b k1 hl,
        show find (.mk v0 cs) (b :: k1) =
          findGo (k1.length + 1 + 1) (.mk v0 cs) (b :: k1) from rfl,
        findGo_cons_none (k1.length + 1) v0 cs b k1 hl]
      rfl
    | some e =>
      obtain ⟨rest, c⟩ := e
      rw [remTree_cons_some v0 cs b k1 rest c hl,
        show find (.mk v0 cs) (b :: k1) =
          findGo (k1.length + 1 + 1) (.mk v0 cs) (b :: k1) from rfl,
        findGo_cons_some (k1.length + 1) v0 cs b k1 rest c hl]
      by_cases hp : rest.isPrefixOf k1
      · rw [if_pos hp, if_pos hp]
        have hih := remGo_isSome (k1.length + 1) c (k1.drop rest.length)
          (by simp only [List.length_drop]; omega)
        cases hrec : remGo (k1.length + 1) c (k1.drop rest.length) with
        | none =>
          rw [hrec] at hih
          exact hih
        | some o =>
          rw [hrec] at hih
          cases o with
          | none => exact hih
          | some p => exact hih
      · rw [if_neg hp, if_neg hp]
        rfl

theorem remove_clears (t : Node) (k : List Nat) (hwf : wfN t = true) :
    ∀ t', remTree t k = some t' → find t' k = none := by
  obtain ⟨v0, cs⟩ := t
  intro t' ht'
  cases k with
  | nil =>
    cases v0 with
    | none => exact absurd ht' (by simp [remTree])
    | some x =>
      have h1 : some (Node.mk none cs) = some t' := ht'
      rw [← Option.some.inj h1]
      rfl
  | cons b k1 =>
    cases hl : lookupC cs b with
    | none =>
      rw [remTree_cons_none v0 cs b k1 hl] at ht'
      exact absurd ht' (by simp)
    | some e =>
      obtain ⟨rest, c⟩ := e
      rw [remTree_cons_some v0 cs b k1 rest c hl] at ht'
      by_cases hp : rest.isPrefixOf k1
      · rw [if_pos hp] at ht'
        have hwfc : wfN c = true := wfN_of_lookupC (wfL_of_wfN_kids hwf) hl
        cases hrec : remGo (k1.length + 1) c (k1.drop rest.length) with
        | none =>
          rw [hrec] at ht'
          exact absurd ht' (by simp)
        | some o =>
          rw [hrec] at ht'
          cases o with
          | none =>
            rw [← Option.some.inj ht']
            rw [show find (.mk v0 (eraseC cs b)) (b :: k1) =
              findGo (k1.length + 1 + 1) (.mk v0 (eraseC cs b)) (b :: k1) from rfl]
            exact findGo_cons_none (k1.length + 1) v0 _ b k1
              (lookupC_eraseC_self (wfL_of_wfN_kids hwf))
          | some p =>
            obtain ⟨ext0, c0⟩ := p
            rw [← Option.some.inj ht']
            rw [show find (.mk v0 (replaceC cs b (rest ++ ext0) c0)) (b :: k1) =
              findGo (k1.length + 1 + 1) (.mk v0 (replaceC cs b (rest ++ ext0) c0))
                (b :: k1) from rfl]
            rw [findGo_cons_some (k1.length + 1) v0 _ b k1 (rest ++ ext0) c0
              (lookupC_replaceC_self (rest ++ ext0) c0 hl)]
            by_cases hpre : (rest ++ ext0).isPrefixOf k1
            · rw [if_pos hpre]
              have hih := rem_find_none (k1.length + 1) c (k1.drop rest.length)
                (by simp only [List.length_drop]; omega) hwfc ext0 c0 hrec
                (k1.length + 1) (by simp only [List.length_drop]; omega)
              have hpp := preIff.mp hpre
              rw [pre_append_iff] at hpp
              rw [findVia, if_pos (preIff.mpr hpp.2)] at hih
              rw [List.length_append, ← List.drop_drop]
              exact hih
            · rw [if_neg hpre]
      · rw [if_neg hp] at ht'
        exact absurd ht' (by simp)

/-- C7: `remove` succeeds exactly when the key is stored, after which
`find_exact` reports it absent; on an absent key it fails with the
negative `NotFound` status and returns the trie unchanged. -/
theorem remove_iff_present_and_clears (t : Node) (k : List Nat) (hwf : wfN t = true) :
    ((find t k).isSome = true →
      (treeRemoveRaw t k).2 = 0 ∧ find (treeRemoveRaw t k).1 k = none) ∧
    (find t k = none → treeRemoveRaw t k = (t, -1)) := by
  constructor
  · intro hsome
    have h1 : (remTree t k).isSome = true := by rw [remTree_isSome]; exact hsome
    obtain ⟨t', ht'⟩ := Option.isSome_iff_exists.mp h1
    have hraw : treeRemoveRaw t k = (t', 0) := by
      rw [show treeRemoveRaw t k =
        (match remTree t k with
         | some t' => (t', 0)
         | none => (t, -1)) from rfl, ht']
    rw [hraw]
    exact ⟨rfl, remove_clears t k hwf t' ht'⟩
  · intro hnone
    have h1 : remTree t k = none := by
      cases hx : remTree t k with
      | none => rfl
      | some t' =>
        have h2 := remTree_isSome t k
        rw [hx, hnone] at h2
        exact absurd h2 (by simp)
    rw [show treeRemoveRaw t k =
      (match remTree t k with
       | some t' => (t', 0)
       | none => (t, -1)) from rfl, h1]

/-- Witness for C7 on a concrete trie: removal of a stored key and the
no-op failure on an absent key. -/
theorem remove_iff_present_and_clears_inst :
    ((treeRemoveRaw wtree [47]).2 = 0 ∧ find (treeRemoveRaw wtree [47]).1 [47] = none) ∧
    treeRemoveRaw wtree [99] = (wtree, -1) :=
  ⟨(remove_iff_present_and_clears wtree [47] (by decide)).1 (by decide),
    (remove_iff_present_and_clears wtree [99] (by decide)).2 (by decide)⟩

theorem compNode_of_lookupC : ∀ {cs : NodeList} {b : Nat} {rest : List Nat} {c : Node},
    compKids cs = true → lookupC cs b = some (rest, c) → compNode c = true
  | .nil, b, rest, c, _, h => by simp [lookupC] at h
  | .cons b0 r0 c0 tl, b, rest, c, hcomp, h => by
    rw [compKids] at hcomp
    simp only [Bool.and_eq_true] at hcomp
    rw [lookupC] at h
    by_cases h0 : b0 = b
    · rw [if_pos h0] at h
      have hc : c = c0 := by
        injection h with h2
        injection h2 with _ h3
        exact h3.symm
      rw [hc]
      exact hcomp.1
    · rw [if_neg h0] at h
      exact compNode_of_lookupC hcomp.2 h

theorem compKids_eraseC : ∀ {cs : NodeList} (b : Nat),
    compKids cs = true → compKids (eraseC cs b) = true
  | .nil, _, _ => rfl
  | .cons b0 r0 c0 tl, b, hcomp => by
    rw [compKids] at hcomp
    simp only [Bool.and_eq_true] at hcomp
    rw [eraseC]
    by_cases h0 : b0 = b
    · rw [if_pos h0]
      exact hcomp.2
    · rw [if_neg h0, compKids]
      simp only [Bool.and_eq_true]
      exact ⟨hcomp.1, compKids_eraseC b hcomp.2⟩

theorem compKids_replaceC : ∀ {cs : NodeList} (b : Nat) (r' : List Nat) (c' : Node),
    compKids cs = true → compNode c' = true → compKids (replaceC cs b r' c') = true
  | .nil, _, _, _, _, _ => rfl
  | .cons b0 r0 c0 tl, b, r', c', hcomp, hc' => by
    rw [compKids] at hcomp
    simp only [Bool.and_eq_true] at hcomp
    rw [replaceC]
    by_cases h0 : b0 = b
    · rw [if_pos h0, compKids]
      simp only [Bool.and_eq_true]
      exact ⟨hc', hcomp.2⟩
    · rw [if_neg h0, compKids]
      simp only [Bool.and_eq_true]
      exact ⟨hcomp.1, compKids_replaceC b r' c' hcomp.2 hc'⟩

theorem normNode_cases {w : Option Int} {csx : NodeList} {ext : List Nat} {c' : Node}
    (hn : normNode (.mk w csx) = some (ext, c')) :
    (ext = [] ∧ c' = .mk w csx ∧ (w.isSome = true ∨ 2 ≤ lenL csx)) ∨
    (∃ b2 r2 c2, w = none ∧ csx = .cons b2 r2 c2 .nil ∧ ext = b2 :: r2 ∧ c' = c2) := by
  cases w with
  | some y =>
    have h2 : (some (([] : List Nat), Node.mk (some y) csx) :
        Option (List Nat × Node)) = some (ext, c') := hn
    injection Option.some.inj h2 with ha hb
    exact Or.inl ⟨ha.symm, hb.symm, Or.inl rfl⟩
  | none =>
    cases csx with
    | nil =>
      have h2 : (none : Option (List Nat × Node)) = some (ext, c') := hn
      exact absurd h2 (by simp)
    | cons b2 r2 c2 tl2 =>
      cases tl2 with
      | nil =>
        have h2 : (some ((b2 :: r2 : List Nat), c2) :
            Option (List Nat × Node)) = some (ext, c') := hn
        injection Option.some.inj h2 with ha hb
        exact Or.inr ⟨b2, r2, c2, rfl, rfl, ha.symm, hb.symm⟩
      | cons b3 r3 c3 tl3 =>
        have h2 : (some (([] : List Nat),
            Node.mk none (NodeList.cons b2 r2 c2 (NodeList.cons b3 r3 c3 tl3))) :
            Option (List Nat × Node)) = some (ext, c') := hn
        injection Option.some.inj h2 with ha hb
        refine Or.inl ⟨ha.symm, by rw [← hb], Or.inr ?_⟩
        rw [lenL, lenL]
        omega

theorem compNode_of_single {b2 : Nat} {r2 : List Nat} {c2 : Node}
    (h : compKids (.cons b2 r2 c2 .nil) = true) : compNode c2 = true := by
  rw [compKids] at h
  simp only [Bool.and_eq_true] at h
  exact h.1

theorem rem_comp : ∀ (f : Nat) (n : Node) (k : List Nat), k.length < f →
    compNode n = true → ∀ (ext : List Nat) (c' : Node),
      remGo f n k = some (some (ext, c')) → compNode c' = true
  | 0, _, k, hf, _, _, _, _ => absurd hf (by omega)
  | f + 1, .mk v0 cs, [], _, hcomp, ext, c', hres => by
    rw [compNode] at hcomp
    simp only [Bool.and_eq_true] at hcomp
    rw [remGo_nil] at hres
    cases v0 with
    | none => exact absurd hres (by simp)
    | some x =>
      have hres2 : normNode (.mk none cs) = some (ext, c') := Option.some.inj hres
      rcases normNode_cases hres2 with ⟨_, hc', hor⟩ | ⟨b2, r2, c2, _, hcs, _, hc'⟩
      · rw [hc', compNode]
        simp only [Bool.and_eq_true]
        refine ⟨?_, hcomp.2⟩
        rcases hor with h1 | h1
        · exact absurd h1 (by simp)
        · simp only [Bool.or_eq_true, decide_eq_true_eq]
          exact Or.inr h1
      · rw [hc']
        rw [hcs] at hcomp
        exact compNode_of_single hcomp.2
  | f + 1, .mk v0 cs, b :: k1, hf, hcomp, ext, c', hres => by
    have hk1 : k1.length < f := by simp only [List.length_cons] at hf; omega
    rw [compNode] at hcomp
    simp only [Bool.and_eq_true] at hcomp
    cases hl : lookupC cs b with
    | none =>
      rw [remGo_cons_none f v0 cs b k1 hl] at hres
      exact absurd hres (by simp)
    | some e =>
      obtain ⟨rest, c⟩ := e
      rw [remGo_cons_some f v0 cs b k1 rest c hl] at hres
      by_cases hp : rest.isPrefixOf k1
      · rw [if_pos hp] at hres
        cases hrec : remGo f c (k1.drop rest.length) with
        | none =>
          rw [hrec] at hres
          exact absurd hres (by simp)
        | some o =>
          rw [hrec] at hres
          cases o with
          | none =>
            have hres2 : normNode (.mk v0 (eraseC cs b)) = some (ext, c') :=
              Option.some.inj hres
            have hkids : compKids (eraseC cs b) = true := compKids_eraseC b hcomp.2
            rcases normNode_cases hres2 with ⟨_, hc', hor⟩ | ⟨b2, r2, c2, _, hcs, _, hc'⟩
            · rw [hc', compNode]
              simp only [Bool.and_eq_true]
              refine ⟨?_, hkids⟩
              rcases hor with h1 | h1
              · simp [h1]
              · simp only [Bool.or_eq_true, decide_eq_true_eq]
                exact Or.inr h1
            · rw [hc']
              rw [hcs] at hkids
              exact compNode_of_single hkids
          | some p =>
            obtain ⟨ext0, c0⟩ := p
            have hc0 : compNode c0 = true :=
              rem_comp f c (k1.drop rest.length)
                (by simp only [List.length_drop]; omega)
                (compNode_of_lookupC hcomp.2 hl) ext0 c0 hrec
            have hres2 : normNode (.mk v0 (replaceC cs b (rest ++ ext0) c0)) =
                some (ext, c') := Option.some.inj hres
            have hkids : compKids (replaceC cs b (rest ++ ext0) c0) = true :=
              compKids_replaceC b (rest ++ ext0) c0 hcomp.2 hc0
            rcases normNode_cases hres2 with ⟨_, hc', hor⟩ | ⟨b2, r2, c2, _, hcs, _, hc'⟩
            · rw [hc', compNode]
              simp only [Bool.and_eq_true]
              refine ⟨?_, hkids⟩
              rcases hor with h1 | h1
              · simp [h1]
              · simp only [Bool.or_eq_true, decide_eq_true_eq]
                exact Or.inr h1
            · rw [hc']
              rw [hcs] at hkids
              exact compNode_of_single hkids
      · rw [if_neg hp] at hres
        exact absurd hres (by simp)

/-- C8: removal preserves the path-compression invariant — in the
resulting trie no non-root node without a value has fewer than two
children (nodes left with one child and no value were merged). -/
theorem remove_preserves_compression (t : Node) (k : List Nat) (t' : Node)
    (hc : compKids t.kids = true) (hrem : remTree t k = some t') :
    compKids t'.kids = true := by
  obtain ⟨v0, cs⟩ := t
  cases k with
  | nil =>
    cases v0 with
    | none => exact absurd hrem (by simp [remTree])
    | some x =>
      have h1 : some (Node.mk none cs) = some t' := hrem
      rw [← Option.some.inj h1]
      exact hc
  | cons b k1 =>
    cases hl : lookupC cs b with
    | none =>
      rw [remTree_cons_none v0 cs b k1 hl] at hrem
      exact absurd hrem (by simp)
    | some e =>
      obtain ⟨rest, c⟩ := e
      rw [remTree_cons_some v0 cs b k1 rest c hl] at hrem
      by_cases hp : rest.isPrefixOf k1
      · rw [if_pos hp] at hrem
        cases hrec : remGo (k1.length + 1) c (k1.drop rest.length) with
        | none =>
          rw [hrec] at hrem
          exact absurd hrem (by simp)
        | some o =>
          rw [hrec] at hrem
          cases o with
          | none =>
            rw [← Option.some.inj hrem]
            exact compKids_eraseC b hc
          | some p =>
            obtain ⟨ext0, c0⟩ := p
            rw [← Option.some.inj hrem]
            have hc0 : compNode c0 = true :=
              rem_comp (k1.length + 1) c (k1.drop rest.length)
                (by simp only [List.length_drop]; omega)
                (compNode_of_lookupC hc hl) ext0 c0 hrec
            exact compKids_replaceC b (rest ++ ext0) c0 hc hc0
      · rw [if_neg hp] at hrem
        exact absurd hrem (by simp)

/-- Witness for C8 on a concrete trie (removing `[47]` forces a merge). -/
theorem remove_preserves_compression_inst :
    compKids ((remTree wtree [47]).getD emptyNode).kids = true :=
  remove_preserves_compression wtree [47] ((remTree wtree [47]).getD emptyNode)
    (by decide) (by rfl)
